import Mathlib

/-! SimpleVector: a verification development.

Shallow embedding of `simple-vector/array_ptr.h` and `simple-vector/simple_vector.h`.

* A heap block is the list of its cells; the null pointer is the block without cells.
* `size_t` is `Nat`: a block of `2^63` cells cannot be allocated, so `capacity_ * 2`
  and `size_ + 1` never wrap on a state the program can reach.
* An iterator is a `Ptr`: the block it points into and an offset in that block.
  The difference of two iterators is a number inside one block; between two blocks it
  holds the distance of the blocks, which cancels when the difference is added to the
  iterator that was subtracted.
* The element type enters through `Elem`: the value `Type()` and the content of a
  cell of `new Type[n]` that has not been assigned yet.
-/

namespace SimpleVector

/-- The element type as the container sees it. -/
structure Elem (T : Type) where
  /-- The value-initialised element `Type()`. -/
  dflt : T
  /-- What a cell of `new Type[n]` holds before its first assignment. -/
  raw : T

/-- The block owned by an `ArrayPtr<Type>`: its cells in order, `[]` for `nullptr`. -/
abbrev ArrayPtr (T : Type) := List T

/-- `ArrayPtr(size_t size)`: `new Type[size]`, or `nullptr` when `size` is zero. -/
def ArrayPtr.alloc {T : Type} (E : Elem T) (size : Nat) : ArrayPtr T :=
  if size ≠ 0 then List.replicate size E.raw else []

/-- The three data members of `SimpleVector<Type>`. -/
structure Vec (T : Type) where
  items_ : ArrayPtr T
  size_ : Nat
  capacity_ : Nat
deriving DecidableEq

variable {T : Type}

/-- `GetSize()`. -/
def GetSize (v : Vec T) : Nat := v.size_

/-- `GetCapacity()`. -/
def GetCapacity (v : Vec T) : Nat := v.capacity_

/-- The cells `[begin(), end())`. -/
def live (v : Vec T) : List T := v.items_.take v.size_

/-- The state a well-behaved run keeps: the block has `capacity_` cells and
`size_` of them are live. -/
def WF (v : Vec T) : Prop := v.items_.length = v.capacity_ ∧ v.size_ ≤ v.capacity_

instance (v : Vec T) : Decidable (WF v) := by unfold WF; infer_instance

/-! ## Algorithms of `<algorithm>` on blocks -/

/-- One assignment `dst[d] = src[s]`; a read outside the block assigns nothing. -/
def assignCell (src : List T) (s : Nat) (dst : List T) (d : Nat) : List T :=
  match src[s]? with
  | some x => dst.set d x
  | none => dst

/-- `std::copy` / `std::move(first, last, d_first)` between two blocks, `n = last - first`
cells, front to back. -/
def copyRange (src : List T) (first : Nat) (dst : List T) (d_first : Nat) : Nat → List T
  | 0 => dst
  | n + 1 => copyRange src (first + 1) (assignCell src first dst d_first) (d_first + 1) n

/-- `std::copy_backward` / `std::move_backward(first, last, d_last)` between two blocks,
`n = last - first` cells, back to front. -/
def copyBackwardRange (src : List T) (last : Nat) (dst : List T) (d_last : Nat) : Nat → List T
  | 0 => dst
  | n + 1 => copyBackwardRange src (last - 1) (assignCell src (last - 1) dst (d_last - 1))
      (d_last - 1) n

/-- `std::copy` / `std::move(first, last, d_first)` inside one block: every read sees the
assignments made before it. -/
def copyWithin (buf : List T) (first d_first : Nat) : Nat → List T
  | 0 => buf
  | n + 1 => copyWithin (assignCell buf first buf d_first) (first + 1) (d_first + 1) n

/-- `std::copy_backward` / `std::move_backward(first, last, d_last)` inside one block. -/
def copyBackwardWithin (buf : List T) (last d_last : Nat) : Nat → List T
  | 0 => buf
  | n + 1 => copyBackwardWithin (assignCell buf (last - 1) buf (d_last - 1)) (last - 1)
      (d_last - 1) n

/-- The loop `for (i = first; i < last; ++i) items[i] = value`, also `std::fill`. -/
def fillRange (buf : List T) (value : T) (first : Nat) : Nat → List T
  | 0 => buf
  | n + 1 => fillRange (buf.set first value) value (first + 1) n

/-- The loop of the initializer-list constructor: `items_[i] = item; ++i` for each item. -/
def assignEach (buf : List T) (i : Nat) : List T → List T
  | [] => buf
  | item :: rest => assignEach (buf.set i item) (i + 1) rest

/-! ## Constructors -/

/-- `SimpleVector()`. -/
def empty : Vec T := { items_ := [], size_ := 0, capacity_ := 0 }

/-- `SimpleVector(size_t size)`. -/
def ofSize (E : Elem T) (size : Nat) : Vec T :=
  { items_ := fillRange (ArrayPtr.alloc E size) E.dflt 0 size, size_ := size, capacity_ := size }

/-- `SimpleVector(size_t size, const Type& value)`. -/
def ofSizeValue (E : Elem T) (size : Nat) (value : T) : Vec T :=
  { items_ := fillRange (ArrayPtr.alloc E size) value 0 size, size_ := size, capacity_ := size }

/-- `SimpleVector(std::initializer_list<Type> init)`. -/
def ofInit (E : Elem T) (init : List T) : Vec T :=
  { items_ := assignEach (ArrayPtr.alloc E init.length) 0 init,
    size_ := init.length, capacity_ := init.length }

/-- `swap(SimpleVector& other)`: the pair is (`*this`, `other`) after the call. -/
def swap (v other : Vec T) : Vec T × Vec T := (other, v)

/-- `SimpleVector(const SimpleVector& other)`. -/
def copyCtor (E : Elem T) (other : Vec T) : Vec T :=
  let other_copy := ofSize E other.size_
  let other_copy := { other_copy with
    items_ := copyRange other.items_ 0 other_copy.items_ 0 other.size_ }
  (swap empty other_copy).1

/-- `SimpleVector(SimpleVector&& other)`: the pair is (`*this`, `other`) after the call. -/
def moveCtor (other : Vec T) : Vec T × Vec T :=
  ({ items_ := other.items_, size_ := other.size_, capacity_ := other.capacity_ },
   { items_ := [], size_ := 0, capacity_ := 0 })

/-! ## Mutators -/

/-- `Clear()`. -/
def Clear (v : Vec T) : Vec T := { v with size_ := 0 }

/-- `PopBack()`; the caller keeps `size_ > 0`. -/
def PopBack (v : Vec T) : Vec T := { v with size_ := v.size_ - 1 }

/-- `PushBack(Type&& item)`. The overload `PushBack(const Type& item)` differs in one
argument: it hands `new_array` itself, not `new_array.Get()`, to `std::move` as the
destination. An `ArrayPtr` is no iterator and cannot be copied, so that overload has no
instantiation of its own to embed. -/
def PushBack (E : Elem T) (v : Vec T) (item : T) : Vec T :=
  let v1 : Vec T :=
    if v.capacity_ = v.size_ then
      let n := if v.capacity_ = 0 then 2 else v.capacity_ * 2
      let new_array := ArrayPtr.alloc E n
      let new_array := copyRange v.items_ 0 new_array 0 v.size_
      { items_ := new_array, size_ := v.size_, capacity_ := n }
    else v
  { v1 with items_ := v1.items_.set v1.size_ item, size_ := v1.size_ + 1 }

/-- The loop `for (size_t i = size_; i < new_size; ++i) PushBack(Type())` of `Resize`,
by the number of its rounds (`i` is read from `size_` once, before the first round). -/
def pushDefaults (E : Elem T) (v : Vec T) : Nat → Vec T
  | 0 => v
  | n + 1 => pushDefaults E (PushBack E v E.dflt) n

/-- `Resize(size_t new_size)`. -/
def Resize (E : Elem T) (v : Vec T) (new_size : Nat) : Vec T :=
  if new_size ≤ v.size_ then
    { v with size_ := new_size }
  else if new_size < v.capacity_ then
    pushDefaults E v (new_size - v.size_)
  else
    let new_array := ofSize E v.size_
    let new_array := { new_array with
      items_ := copyRange v.items_ 0 new_array.items_ 0 v.size_ }
    let this := (swap v new_array).1
    pushDefaults E this (new_size - this.size_)

/-- `Reserve(size_t new_capacity)`. -/
def Reserve (E : Elem T) (v : Vec T) (new_capacity : Nat) : Vec T :=
  if new_capacity ≤ v.capacity_ then v
  else
    let new_vector := ofSize E new_capacity
    let new_vector := Resize E new_vector v.size_
    let new_vector := { new_vector with
      items_ := copyRange v.items_ 0 new_vector.items_ 0 v.size_ }
    (swap v new_vector).1

/-- `SimpleVector(ReserveProxyObj proxyObj)`, with `proxyObj.capacity_ = cap`. -/
def ofReserve (E : Elem T) (cap : Nat) : Vec T := Reserve E empty cap

/-! ## Assignment -/

/-- The right-hand side of an assignment: the assigned object itself, or another one. -/
inductive Rhs (T : Type) where
  | this
  | other (rhs : Vec T)
deriving DecidableEq

/-- `operator=(const SimpleVector& rhs)`: the state of `*this` after the call
(`rhs` is `const` and not written). -/
def copyAssign (E : Elem T) (v : Vec T) : Rhs T → Vec T
  | .this => v
  | .other rhs =>
    let other_copy := ofSize E rhs.size_
    let other_copy := { other_copy with
      items_ := copyRange rhs.items_ 0 other_copy.items_ 0 rhs.size_ }
    (swap v other_copy).1

/-- `operator=(SimpleVector&& other)`: the states of `*this` and of `other` after the call
(for a self-assignment both are the one object). -/
def moveAssign (v : Vec T) : Rhs T → Vec T × Vec T
  | .this => (v, v)
  | .other other =>
    ({ items_ := other.items_, size_ := other.size_, capacity_ := other.capacity_ },
     { items_ := [], size_ := 0, capacity_ := 0 })

/-! ## Iterators -/

/-- The storage an iterator met during one call can point into. -/
inductive Block where
  /-- The block `items_` owns when the call starts. -/
  | self
  /-- The block of the local vector `new_vector`. -/
  | fresh
  /-- The automatic storage of a call that has returned. -/
  | frame
deriving DecidableEq

/-- An iterator (`Type*`): a block and an offset into it. -/
structure Ptr where
  blk : Block
  off : Nat
deriving DecidableEq

/-- The difference `a - b` of two iterators, `b` not after `a`, as a number of cells:
known inside one block only. -/
def Ptr.diff (a b : Ptr) : Option Nat :=
  if a.blk = b.blk then some (a.off - b.off) else none

/-- The cell `base[a - b]`, that is `*(base + (a - b))`. Inside one block `a - b` is a
number of cells. Between two blocks it is that number plus the distance of the two blocks,
and adding it to an iterator of the block of `b` gives an iterator of the block of `a`. -/
def Ptr.subscript (base a b : Ptr) : Option Ptr :=
  if a.blk = b.blk then some ⟨base.blk, base.off + a.off - b.off⟩
  else if base.blk = b.blk then some ⟨a.blk, base.off + a.off - b.off⟩
  else none

/-- `begin()` of the vector that owns block `b`. -/
def begin (b : Block) : Ptr := ⟨b, 0⟩

/-- `cbegin()` of the vector that owns block `b`. -/
def cbegin (b : Block) : Ptr := ⟨b, 0⟩

/-- `end()` of the vector `v` that owns block `b`. -/
def end_ (b : Block) (v : Vec T) : Ptr := ⟨b, v.size_⟩

/-- `cend()`: `const Type* end = items_.Get() + size_; return &end;`, the address of the
local variable `end`, whatever the vector. -/
def cend (_b : Block) (_v : Vec T) : Ptr := ⟨Block.frame, 0⟩

/-- The type of a C++ expression, as far as the iterators need it. -/
inductive CType where
  /-- The type `const Type`. -/
  | constType
  /-- The type of a pointer to `pointee`. -/
  | pointer (pointee : CType)
deriving DecidableEq

/-- `ConstIterator`, that is `const Type*`. -/
def ConstIterator : CType := CType.pointer CType.constType

/-- The type of the operand `&end` of the `return` of `cend()`: `end` is a `const Type*`. -/
def cendReturned : CType := CType.pointer ConstIterator

/-- Whether the body of `cend()` type-checks: the operand of its `return` must have the
return type `ConstIterator`, and no conversion turns a pointer to a pointer into one. A
member function whose body calls `cend()` can be instantiated only if this holds. -/
def cendTypeChecks : Bool := decide (cendReturned = ConstIterator)

/-- What a call that returns an iterator leaves behind. -/
structure Returned (T : Type) where
  /-- The state of `*this`. -/
  vec : Vec T
  /-- The block `vec.items_` is. -/
  blk : Block
  /-- The returned iterator. -/
  ret : Ptr
  /-- Whether a program can make the call and every step of it has defined operands: the
  body type-checks and every range it walks lies in one block. A step without defined
  operands assigns nothing. -/
  defined : Bool
deriving DecidableEq

/-! ## Insert and Erase -/

/-- `Insert(ConstIterator pos, const Type& value)` with `pos = cbegin() + p`. The body
calls `cend()`, so both branches belong to a function that exists only if `cend()`
type-checks. -/
def InsertCopy (E : Elem T) (v : Vec T) (p : Nat) (value : T) : Returned T :=
  if v.capacity_ ≥ v.size_ + 1 then
    let new_pos : Ptr := ⟨Block.self, p⟩
    let items := copyBackwardWithin v.items_ v.size_ (v.size_ + 1) (v.size_ - new_pos.off)
    let items := items.set new_pos.off value
    { vec := { items_ := items, size_ := v.size_ + 1, capacity_ := v.capacity_ },
      blk := Block.self, ret := new_pos, defined := cendTypeChecks }
  else
    let new_vector := ofSize E (v.capacity_ * 2)
    let new_vector := Resize E new_vector (v.size_ + 1)
    let pos : Ptr := ⟨Block.self, p⟩
    -- std::move(cbegin(), pos, new_vector.begin())
    let items := copyRange v.items_ 0 new_vector.items_ 0 p
    let old_pos : Ptr := ⟨Block.self, p⟩
    let new_pos : Ptr := ⟨Block.fresh, old_pos.off - (begin Block.self).off⟩
    -- *new_pos = value
    let items := items.set new_pos.off value
    -- std::move_backward(pos, cend(), new_vector.end())
    let moved : List T × Bool :=
      match Ptr.diff (cend Block.self v) pos with
      | some n => (copyBackwardRange v.items_ (pos.off + n) items new_vector.size_ n, true)
      | none => (items, false)
    let new_vector := { new_vector with items_ := moved.1 }
    { vec := (swap v new_vector).1, blk := Block.fresh, ret := new_pos,
      defined := cendTypeChecks && moved.2 }

/-- `Insert(Iterator pos, Type&& value)` with `pos = begin() + p`. -/
def InsertMove (E : Elem T) (v : Vec T) (p : Nat) (value : T) : Returned T :=
  if v.capacity_ ≥ v.size_ + 1 then
    let new_pos : Ptr := ⟨Block.self, p⟩
    let items := copyBackwardWithin v.items_ v.size_ (v.size_ + 1) (v.size_ - new_pos.off)
    -- items_[pos - begin()] = std::exchange(value, 0)
    let items := items.set (p - (begin Block.self).off) value
    { vec := { items_ := items, size_ := v.size_ + 1, capacity_ := v.capacity_ },
      blk := Block.self, ret := new_pos, defined := true }
  else
    let new_vector := ofSize E (v.capacity_ * 2)
    let new_vector := Resize E new_vector (v.size_ + 1)
    -- std::move(begin(), pos, new_vector.begin())
    let items := copyRange v.items_ 0 new_vector.items_ 0 p
    let old_pos : Ptr := ⟨Block.self, p⟩
    let new_pos : Ptr := ⟨Block.fresh, old_pos.off - (begin Block.self).off⟩
    -- items_[new_pos - begin()] = std::exchange(value, 0): the cell
    -- *(items_.Get() + (new_pos - begin())); `stored` is the old block, the block of
    -- new_vector, and whether the cell is known
    let stored : List T × List T × Bool :=
      match Ptr.subscript (begin Block.self) new_pos (begin Block.self) with
      | some ⟨Block.self, k⟩ => (v.items_.set k value, items, true)
      | some ⟨Block.fresh, k⟩ => (v.items_, items.set k value, true)
      | _ => (v.items_, items, false)
    -- std::move_backward(pos, end(), new_vector.end())
    let items := copyBackwardRange stored.1 v.size_ stored.2.1 new_vector.size_ (v.size_ - p)
    let new_vector := { new_vector with items_ := items }
    { vec := (swap v new_vector).1, blk := Block.fresh, ret := new_pos,
      defined := stored.2.2 }

/-- `Erase(ConstIterator pos)` and `Erase(Iterator pos)` with `pos = cbegin() + p`
(the two bodies differ in `std::copy` against `std::move` only). -/
def Erase (v : Vec T) (p : Nat) : Returned T :=
  let new_pos : Ptr := ⟨Block.self, p⟩
  let items := copyWithin v.items_ (new_pos.off + 1) new_pos.off (v.size_ - (new_pos.off + 1))
  { vec := { items_ := items, size_ := v.size_ - 1, capacity_ := v.capacity_ },
    blk := Block.self, ret := new_pos, defined := true }

/-- Consecutive `PushBack` calls, one per element of `xs`, in order. -/
def pushAll (E : Elem T) (v : Vec T) : List T → Vec T
  | [] => v
  | x :: xs => pushAll E (PushBack E v x) xs

/-- How many of the consecutive `PushBack` calls, one per element of the list, leave
`capacity_` different from what it was before the call. -/
def growthCount (E : Elem T) (v : Vec T) : List T → Nat
  | [] => 0
  | x :: xs =>
    (if (PushBack E v x).capacity_ = v.capacity_ then 0 else 1)
      + growthCount E (PushBack E v x) xs

/-! ## Checked access -/

/-- The exception `At` throws. -/
inductive Error where
  | out_of_range
deriving DecidableEq

/-- `At(size_t index)`, the mutable and the `const` overload: the state of `*this` after the
call, and the exception or the cell `items_[index]` the returned reference denotes (`none`
for a cell the block does not have). -/
def At (v : Vec T) (index : Nat) : Vec T × Except Error (Option T) :=
  if index ≥ v.size_ then (v, Except.error Error.out_of_range)
  else (v, Except.ok v.items_[index]?)

/-! ## Copies seen from both objects -/

/-- `SimpleVector(const SimpleVector& other)`: the new object and `other` after the call;
`other` is bound by a reference to `const` and only read. -/
def copyCtorBoth (E : Elem T) (other : Vec T) : Vec T × Vec T := (copyCtor E other, other)

/-- `operator=(const SimpleVector& rhs)` with `rhs` another object: `*this` and `rhs` after
the call; `rhs` is bound by a reference to `const` and only read. -/
def copyAssignBoth (E : Elem T) (v rhs : Vec T) : Vec T × Vec T :=
  (copyAssign E v (Rhs.other rhs), rhs)

/-! ## Comparisons

The range `[v.begin(), v.end())` is the list `live v`. -/

/-- The loop of `std::equal` over two ranges of one length. -/
def equalLoop [BEq T] : List T → List T → Bool
  | x :: xs, y :: ys => if x == y then equalLoop xs ys else false
  | _, _ => true

/-- `std::equal(first1, last1, first2, last2)`: ranges of different lengths are unequal. -/
def equal [BEq T] (r1 r2 : List T) : Bool :=
  if r1.length ≠ r2.length then false else equalLoop r1 r2

/-- `std::lexicographical_compare(first1, last1, first2, last2)`: while both ranges have an
element, `*first1 < *first2` answers true and `*first2 < *first1` answers false; at the end
the answer is `first1 == last1 && first2 != last2`. -/
def lexicographical_compare [LT T] [DecidableRel (fun a b : T => a < b)] :
    List T → List T → Bool
  | [], [] => false
  | [], _ :: _ => true
  | _ :: _, [] => false
  | x :: xs, y :: ys =>
    if x < y then true
    else if y < x then false
    else lexicographical_compare xs ys

/-- `operator==`. -/
def opEq [BEq T] (lhs rhs : Vec T) : Bool := equal (live lhs) (live rhs)

/-- `operator!=`. -/
def opNe [BEq T] (lhs rhs : Vec T) : Bool := !equal (live lhs) (live rhs)

/-- `operator<`. -/
def opLt [LT T] [DecidableRel (fun a b : T => a < b)] (lhs rhs : Vec T) : Bool :=
  lexicographical_compare (live lhs) (live rhs)

/-- `operator<=`. -/
def opLe [LT T] [DecidableRel (fun a b : T => a < b)] (lhs rhs : Vec T) : Bool :=
  !lexicographical_compare (live rhs) (live lhs)

/-- `operator>`. -/
def opGt [LT T] [DecidableRel (fun a b : T => a < b)] (lhs rhs : Vec T) : Bool :=
  lexicographical_compare (live rhs) (live lhs)

/-- `operator>=`. -/
def opGe [LT T] [DecidableRel (fun a b : T => a < b)] (lhs rhs : Vec T) : Bool :=
  !lexicographical_compare (live lhs) (live rhs)

/-! ## The block algorithms, cell by cell -/

@[simp] theorem length_assignCell (src : List T) (s : Nat) (dst : List T) (d : Nat) :
    (assignCell src s dst d).length = dst.length := by
  unfold assignCell; split <;> simp

@[simp] theorem length_copyRange (src : List T) (n : Nat) :
    ∀ (first : Nat) (dst : List T) (d : Nat), (copyRange src first dst d n).length = dst.length := by
  induction n with
  | zero => intro first dst d; rfl
  | succ n ih => intro first dst d; simp [copyRange, ih]

@[simp] theorem length_copyBackwardRange (src : List T) (n : Nat) :
    ∀ (last : Nat) (dst : List T) (d : Nat),
      (copyBackwardRange src last dst d n).length = dst.length := by
  induction n with
  | zero => intro last dst d; rfl
  | succ n ih => intro last dst d; simp [copyBackwardRange, ih]

@[simp] theorem length_copyWithin (n : Nat) :
    ∀ (buf : List T) (first d : Nat), (copyWithin buf first d n).length = buf.length := by
  induction n with
  | zero => intro buf first d; rfl
  | succ n ih => intro buf first d; simp [copyWithin, ih]

@[simp] theorem length_copyBackwardWithin (n : Nat) :
    ∀ (buf : List T) (last d : Nat), (copyBackwardWithin buf last d n).length = buf.length := by
  induction n with
  | zero => intro buf last d; rfl
  | succ n ih => intro buf last d; simp [copyBackwardWithin, ih]

@[simp] theorem length_fillRange (value : T) (n : Nat) :
    ∀ (buf : List T) (first : Nat), (fillRange buf value first n).length = buf.length := by
  induction n with
  | zero => intro buf first; rfl
  | succ n ih => intro buf first; simp [fillRange, ih]

@[simp] theorem length_assignEach (init : List T) :
    ∀ (buf : List T) (i : Nat), (assignEach buf i init).length = buf.length := by
  induction init with
  | nil => intro buf i; rfl
  | cons x xs ih => intro buf i; simp [assignEach, ih]

@[simp] theorem length_alloc (E : Elem T) (n : Nat) : (ArrayPtr.alloc E n).length = n := by
  unfold ArrayPtr.alloc; split
  · simp
  · simp; omega

theorem alloc_eq (E : Elem T) (n : Nat) : ArrayPtr.alloc E n = List.replicate n E.raw := by
  unfold ArrayPtr.alloc; split
  · rfl
  · have : n = 0 := by omega
    subst this; rfl

theorem getElem?_assignCell (src : List T) (s : Nat) (dst : List T) (d i : Nat)
    (hs : s < src.length) (hd : d < dst.length) :
    (assignCell src s dst d)[i]? = if i = d then src[s]? else dst[i]? := by
  unfold assignCell
  rw [List.getElem?_eq_getElem hs]
  simp only [List.getElem?_set]
  by_cases h : d = i
  · subst h; simp [hd]
  · have h2 : ¬ i = d := fun e => h e.symm
    simp [h, h2]

theorem getElem?_copyRange (src : List T) (n : Nat) :
    ∀ (first : Nat) (dst : List T) (d i : Nat), first + n ≤ src.length → d + n ≤ dst.length →
      (copyRange src first dst d n)[i]? =
        if d ≤ i ∧ i < d + n then src[first + (i - d)]? else dst[i]? := by
  induction n with
  | zero => intro first dst d i _ _; rw [copyRange, if_neg (by omega)]
  | succ n ih =>
    intro first dst d i hs hd
    rw [copyRange, ih (first + 1) _ (d + 1) i (by omega) (by simp; omega),
      getElem?_assignCell src first dst d i (by omega) (by omega)]
    by_cases h1 : i = d
    · subst h1
      rw [if_neg (by omega), if_pos rfl, if_pos (by omega)]; simp
    · by_cases h2 : d ≤ i ∧ i < d + (n + 1)
      · have h4 : first + 1 + (i - (d + 1)) = first + (i - d) := by omega
        rw [if_pos (by omega), if_pos h2, h4]
      · rw [if_neg (by omega), if_neg h1, if_neg h2]

theorem getElem?_copyBackwardRange (src : List T) (n : Nat) :
    ∀ (last : Nat) (dst : List T) (d i : Nat), n ≤ last → last ≤ src.length → n ≤ d →
      d ≤ dst.length →
      (copyBackwardRange src last dst d n)[i]? =
        if d - n ≤ i ∧ i < d then src[last - (d - i)]? else dst[i]? := by
  induction n with
  | zero => intro last dst d i _ _ _ _; rw [copyBackwardRange, if_neg (by omega)]
  | succ n ih =>
    intro last dst d i hn hs hd hl
    rw [copyBackwardRange, ih (last - 1) _ (d - 1) i (by omega) (by omega) (by omega)
      (by simp; omega),
      getElem?_assignCell src (last - 1) dst (d - 1) i (by omega) (by omega)]
    by_cases h1 : i = d - 1
    · subst h1
      have h4 : last - (d - (d - 1)) = last - 1 := by omega
      rw [if_neg (by omega), if_pos rfl, if_pos (by omega), h4]
    · by_cases h2 : d - (n + 1) ≤ i ∧ i < d
      · have h4 : last - 1 - (d - 1 - i) = last - (d - i) := by omega
        rw [if_pos (by omega), if_pos h2, h4]
      · rw [if_neg (by omega), if_neg h1, if_neg h2]

theorem getElem?_fillRange (value : T) (n : Nat) :
    ∀ (buf : List T) (first i : Nat), first + n ≤ buf.length →
      (fillRange buf value first n)[i]? =
        if first ≤ i ∧ i < first + n then some value else buf[i]? := by
  induction n with
  | zero => intro buf first i _; rw [fillRange, if_neg (by omega)]
  | succ n ih =>
    intro buf first i h
    rw [fillRange, ih _ (first + 1) i (by simp; omega), List.getElem?_set]
    by_cases h1 : first = i
    · subst h1
      rw [if_neg (by omega), if_pos rfl, if_pos (by omega), if_pos (by omega)]
    · by_cases h2 : first ≤ i ∧ i < first + (n + 1)
      · rw [if_pos (by omega), if_pos h2]
      · rw [if_neg (by omega), if_neg h1, if_neg h2]

theorem getElem?_assignEach (init : List T) :
    ∀ (buf : List T) (k i : Nat), k + init.length ≤ buf.length →
      (assignEach buf k init)[i]? =
        if k ≤ i ∧ i < k + init.length then init[i - k]? else buf[i]? := by
  induction init with
  | nil => intro buf k i _; rw [assignEach, if_neg (by simp)]
  | cons x xs ih =>
    intro buf k i h
    simp only [List.length_cons] at h
    rw [assignEach, ih _ (k + 1) i (by simp; omega), List.getElem?_set]
    by_cases h1 : k = i
    · subst h1
      rw [if_neg (by omega), if_pos rfl, if_pos (by omega),
        if_pos (by simp only [List.length_cons]; omega)]
      simp
    · by_cases h2 : k ≤ i ∧ i < k + (xs.length + 1)
      · obtain ⟨j, hj⟩ : ∃ j, i - k = j + 1 := ⟨i - k - 1, by omega⟩
        have h4 : i - (k + 1) = j := by omega
        rw [if_pos (by omega), if_pos (by simp only [List.length_cons]; omega), hj, h4]
        simp
      · rw [if_neg (by omega), if_neg h1, if_neg (by simp only [List.length_cons]; omega)]

theorem getElem?_copyBackwardWithin (n : Nat) :
    ∀ (buf : List T) (last d i : Nat), d = last + 1 → n ≤ last → d ≤ buf.length →
      (copyBackwardWithin buf last d n)[i]? =
        if last - n < i ∧ i ≤ last then buf[i - 1]? else buf[i]? := by
  induction n with
  | zero => intro buf last d i _ _ _; rw [copyBackwardWithin, if_neg (by omega)]
  | succ n ih =>
    intro buf last d i hd hn hl
    subst hd
    rw [copyBackwardWithin, ih _ (last - 1) (last + 1 - 1) i (by omega) (by omega)
      (by simp; omega)]
    by_cases h1 : last - 1 - n < i ∧ i ≤ last - 1
    · rw [if_pos h1, if_pos (by omega),
        getElem?_assignCell buf (last - 1) buf (last + 1 - 1) (i - 1) (by omega) (by omega),
        if_neg (by omega)]
    · rw [if_neg h1,
        getElem?_assignCell buf (last - 1) buf (last + 1 - 1) i (by omega) (by omega)]
      by_cases h2 : i = last
      · subst h2
        rw [if_pos (by omega), if_pos (by omega)]
      · rw [if_neg (by omega), if_neg (by omega)]

theorem getElem?_copyWithin (n : Nat) :
    ∀ (buf : List T) (first d i : Nat), first = d + 1 → first + n ≤ buf.length →
      (copyWithin buf first d n)[i]? =
        if d ≤ i ∧ i < d + n then buf[i + 1]? else buf[i]? := by
  induction n with
  | zero => intro buf first d i _ _; rw [copyWithin, if_neg (by omega)]
  | succ n ih =>
    intro buf first d i hf hl
    subst hf
    rw [copyWithin, ih _ (d + 1 + 1) (d + 1) i rfl (by simp; omega)]
    by_cases h1 : d + 1 ≤ i ∧ i < d + 1 + n
    · rw [if_pos h1, if_pos (by omega),
        getElem?_assignCell buf (d + 1) buf d (i + 1) (by omega) (by omega),
        if_neg (by omega)]
    · rw [if_neg h1, getElem?_assignCell buf (d + 1) buf d i (by omega) (by omega)]
      by_cases h2 : i = d
      · subst h2
        rw [if_pos rfl, if_pos (by omega)]
      · rw [if_neg h2, if_neg (by omega)]

theorem take_copyRange (src dst : List T) (n : Nat) (hs : n ≤ src.length)
    (hd : n ≤ dst.length) : (copyRange src 0 dst 0 n).take n = src.take n := by
  apply List.ext_getElem?
  intro i
  rw [List.getElem?_take, List.getElem?_take]
  by_cases h : i < n
  · rw [if_pos h, if_pos h, getElem?_copyRange src n 0 dst 0 i (by omega) (by omega),
      if_pos (by omega)]
    simp
  · rw [if_neg h, if_neg h]

theorem drop_copyRange (src dst : List T) (n : Nat) (hs : n ≤ src.length)
    (hd : n ≤ dst.length) : (copyRange src 0 dst 0 n).drop n = dst.drop n := by
  apply List.ext_getElem?
  intro i
  rw [List.getElem?_drop, List.getElem?_drop,
    getElem?_copyRange src n 0 dst 0 (n + i) (by omega) (by omega), if_neg (by omega)]

/-! ## The constructors' blocks -/

theorem fillRange_alloc (E : Elem T) (value : T) (n : Nat) :
    fillRange (ArrayPtr.alloc E n) value 0 n = List.replicate n value := by
  apply List.ext_getElem?
  intro i
  rw [getElem?_fillRange value n _ 0 i (by simp), List.getElem?_replicate]
  by_cases h : i < n
  · rw [if_pos (by omega), if_pos h]
  · rw [if_neg (by omega), if_neg h, List.getElem?_eq_none (by simp; omega)]

theorem ofSize_eq (E : Elem T) (n : Nat) :
    ofSize E n = { items_ := List.replicate n E.dflt, size_ := n, capacity_ := n } := by
  simp [ofSize, fillRange_alloc]

theorem ofSizeValue_eq (E : Elem T) (n : Nat) (value : T) :
    ofSizeValue E n value = { items_ := List.replicate n value, size_ := n, capacity_ := n } := by
  simp [ofSizeValue, fillRange_alloc]

theorem assignEach_alloc (E : Elem T) (init : List T) :
    assignEach (ArrayPtr.alloc E init.length) 0 init = init := by
  apply List.ext_getElem?
  intro i
  rw [getElem?_assignEach init _ 0 i (by simp)]
  by_cases h : i < init.length
  · rw [if_pos (by omega)]; simp
  · rw [if_neg (by omega), List.getElem?_eq_none (by simp; omega),
      List.getElem?_eq_none (by omega)]

theorem ofInit_eq (E : Elem T) (init : List T) :
    ofInit E init = { items_ := init, size_ := init.length, capacity_ := init.length } := by
  simp [ofInit, assignEach_alloc]

/-! ## PushBack -/

theorem PushBack_size (E : Elem T) (v : Vec T) (x : T) :
    (PushBack E v x).size_ = v.size_ + 1 := by
  unfold PushBack; split <;> rfl

theorem PushBack_capacity (E : Elem T) (v : Vec T) (x : T) :
    (PushBack E v x).capacity_ =
      if v.capacity_ = v.size_ then (if v.capacity_ = 0 then 2 else v.capacity_ * 2)
      else v.capacity_ := by
  unfold PushBack; split <;> rfl

theorem PushBack_length (E : Elem T) (v : Vec T) (x : T) (h : v.items_.length = v.capacity_) :
    (PushBack E v x).items_.length = (PushBack E v x).capacity_ := by
  unfold PushBack; split <;> simp [h]

theorem PushBack_WF (E : Elem T) (v : Vec T) (x : T) (h : WF v) : WF (PushBack E v x) := by
  refine ⟨PushBack_length E v x h.1, ?_⟩
  rw [PushBack_size, PushBack_capacity]
  have := h.2
  split
  · split <;> omega
  · omega

theorem PushBack_getElem?_lt (E : Elem T) (v : Vec T) (x : T) (h : WF v) (i : Nat)
    (hi : i < v.size_) : (PushBack E v x).items_[i]? = v.items_[i]? := by
  obtain ⟨h1, h2⟩ := h
  unfold PushBack
  split
  · simp only []
    rw [List.getElem?_set_ne (by omega),
      getElem?_copyRange v.items_ v.size_ 0 _ 0 i (by omega) (by simp; split <;> omega),
      if_pos (by omega)]
    simp
  · simp only []
    rw [List.getElem?_set_ne (by omega)]

theorem PushBack_getElem?_size (E : Elem T) (v : Vec T) (x : T) (h : WF v) :
    (PushBack E v x).items_[v.size_]? = some x := by
  obtain ⟨h1, h2⟩ := h
  unfold PushBack
  split
  · simp only []
    rw [List.getElem?_set_self (by simp; split <;> omega)]
  · simp only []
    rw [List.getElem?_set_self (by omega)]

theorem PushBack_live (E : Elem T) (v : Vec T) (x : T) (h : WF v) :
    live (PushBack E v x) = live v ++ [x] := by
  have hlen : (live v).length = v.size_ := by
    unfold live; rw [List.length_take]; have := h.1; have := h.2; omega
  apply List.ext_getElem?
  intro i
  unfold live at hlen ⊢
  rw [PushBack_size, List.getElem?_take, List.getElem?_append]
  by_cases h1 : i < v.size_
  · rw [if_pos (by omega), if_pos (by omega), PushBack_getElem?_lt E v x h i h1,
      List.getElem?_take, if_pos h1]
  · by_cases h2 : i = v.size_
    · subst h2
      rw [if_pos (by omega), if_neg (by omega), PushBack_getElem?_size E v x h, hlen]
      simp
    · rw [if_neg (by omega), if_neg (by omega), hlen,
        List.getElem?_eq_none (by simp; omega)]

/-! ## Runs of PushBack -/

theorem pushDefaults_eq_pushAll (E : Elem T) (n : Nat) :
    ∀ v : Vec T, pushDefaults E v n = pushAll E v (List.replicate n E.dflt) := by
  induction n with
  | zero => intro v; rfl
  | succ n ih => intro v; rw [pushDefaults, ih, List.replicate_succ, pushAll]

theorem pushAll_WF (E : Elem T) (xs : List T) : ∀ v : Vec T, WF v → WF (pushAll E v xs) := by
  induction xs with
  | nil => intro v h; exact h
  | cons x xs ih => intro v h; exact ih _ (PushBack_WF E v x h)

theorem pushAll_size (E : Elem T) (xs : List T) :
    ∀ v : Vec T, (pushAll E v xs).size_ = v.size_ + xs.length := by
  induction xs with
  | nil => intro v; rfl
  | cons x xs ih => intro v; rw [pushAll, ih, PushBack_size, List.length_cons]; omega

theorem pushAll_live (E : Elem T) (xs : List T) :
    ∀ v : Vec T, WF v → live (pushAll E v xs) = live v ++ xs := by
  induction xs with
  | nil => intro v _; simp [pushAll]
  | cons x xs ih =>
    intro v h
    rw [pushAll, ih _ (PushBack_WF E v x h), PushBack_live E v x h]; simp

theorem pushAll_capacity_of_le (E : Elem T) (xs : List T) :
    ∀ v : Vec T, v.size_ + xs.length ≤ v.capacity_ →
      (pushAll E v xs).capacity_ = v.capacity_ := by
  induction xs with
  | nil => intro v _; rfl
  | cons x xs ih =>
    intro v h
    simp only [List.length_cons] at h
    have hc : (PushBack E v x).capacity_ = v.capacity_ := by
      rw [PushBack_capacity, if_neg (by omega)]
    rw [pushAll, ih _ (by rw [PushBack_size, hc]; omega), hc]

/-! ## Resize and Reserve -/

theorem Resize_size (E : Elem T) (v : Vec T) (n : Nat) : (Resize E v n).size_ = n := by
  unfold Resize
  split
  · rfl
  · split
    · rw [pushDefaults_eq_pushAll, pushAll_size, List.length_replicate]; omega
    · simp only [swap]
      rw [pushDefaults_eq_pushAll, pushAll_size, List.length_replicate]
      simp only [ofSize]; omega

/-- The vector `Resize` swaps in on its last branch. -/
theorem Resize_fresh_WF (E : Elem T) (v : Vec T) :
    WF ({ ofSize E v.size_ with
      items_ := copyRange v.items_ 0 (ofSize E v.size_).items_ 0 v.size_ } : Vec T) := by
  constructor
  · simp [ofSize]
  · simp [ofSize]

theorem Resize_WF (E : Elem T) (v : Vec T) (n : Nat) (h : WF v) : WF (Resize E v n) := by
  unfold Resize
  split
  · exact ⟨h.1, by have := h.2; simp only []; omega⟩
  · split
    · rw [pushDefaults_eq_pushAll]; exact pushAll_WF E _ v h
    · simp only [swap]
      rw [pushDefaults_eq_pushAll]
      exact pushAll_WF E _ _ (Resize_fresh_WF E v)

theorem Resize_inv (E : Elem T) (v : Vec T) (n : Nat) (h : v.size_ ≤ v.capacity_) :
    (Resize E v n).size_ ≤ (Resize E v n).capacity_ := by
  rw [Resize_size]
  unfold Resize
  split
  · simp only []; omega
  · split
    · rw [pushDefaults_eq_pushAll, pushAll_capacity_of_le]
      · omega
      · rw [List.length_replicate]; omega
    · simp only [swap]
      rw [pushDefaults_eq_pushAll]
      have h1 := (pushAll_WF E (List.replicate (n - (ofSize E v.size_).size_) E.dflt) _
        (Resize_fresh_WF E v)).2
      rw [pushAll_size, List.length_replicate] at h1
      simp only [ofSize] at h1 ⊢
      omega

theorem Resize_live_grow (E : Elem T) (v : Vec T) (n : Nat) (h : WF v) (hn : v.size_ < n) :
    live (Resize E v n) = live v ++ List.replicate (n - v.size_) E.dflt := by
  unfold Resize
  rw [if_neg (by omega)]
  split
  · rw [pushDefaults_eq_pushAll, pushAll_live E _ v h]
  · simp only [swap]
    rw [pushDefaults_eq_pushAll, pushAll_live E _ _ (Resize_fresh_WF E v)]
    congr 1
    unfold live
    simp only [ofSize]
    exact take_copyRange _ _ _ (by have := h.1; have := h.2; omega) (by simp)

theorem Reserve_WF (E : Elem T) (v : Vec T) (n : Nat) (h : WF v) : WF (Reserve E v n) := by
  unfold Reserve
  split
  · exact h
  · have h1 := Resize_WF E (ofSize E n) v.size_ (by rw [ofSize_eq]; exact ⟨by simp, le_refl _⟩)
    exact ⟨by simp only [swap, length_copyRange]; exact h1.1, h1.2⟩

theorem Reserve_inv (E : Elem T) (v : Vec T) (n : Nat) (h : v.size_ ≤ v.capacity_) :
    (Reserve E v n).size_ ≤ (Reserve E v n).capacity_ := by
  unfold Reserve
  split
  · exact h
  · exact Resize_inv E (ofSize E n) v.size_ (by simp [ofSize])

theorem Reserve_grow (E : Elem T) (v : Vec T) (n : Nat) (h : WF v) (hn : v.capacity_ < n) :
    (Reserve E v n).capacity_ = n ∧ (Reserve E v n).size_ = v.size_ ∧
      live (Reserve E v n) = live v := by
  obtain ⟨h1, h2⟩ := h
  have hr : Resize E (ofSize E n) v.size_ =
      { items_ := List.replicate n E.dflt, size_ := v.size_, capacity_ := n } := by
    rw [ofSize_eq]; unfold Resize; rw [if_pos (by simp only []; omega)]
  unfold Reserve
  rw [if_neg (by omega)]
  simp only [hr]
  refine ⟨rfl, rfl, ?_⟩
  simp only [swap, live]
  exact take_copyRange _ _ _ (by omega) (by simp; omega)

/-! ## Insert where one more element fits -/

theorem Insert_inplace_cells (v : Vec T) (p : Nat) (x : T) (h : WF v)
    (hc : v.size_ + 1 ≤ v.capacity_) (hp : p ≤ v.size_) (i : Nat) :
    ((copyBackwardWithin v.items_ v.size_ (v.size_ + 1) (v.size_ - p)).set p x)[i]? =
      if i = p then some x
      else if p < i ∧ i ≤ v.size_ then v.items_[i - 1]? else v.items_[i]? := by
  obtain ⟨h1, h2⟩ := h
  rw [List.getElem?_set]
  by_cases hi : p = i
  · subst hi
    rw [if_pos rfl, if_pos (by simp; omega), if_pos rfl]
  · rw [if_neg hi, if_neg (fun e => hi e.symm),
      getElem?_copyBackwardWithin (v.size_ - p) v.items_ v.size_ (v.size_ + 1) i rfl
        (by omega) (by omega)]
    by_cases h3 : p < i ∧ i ≤ v.size_
    · rw [if_pos (by omega), if_pos h3]
    · rw [if_neg (by omega), if_neg h3]

theorem InsertCopy_inv (E : Elem T) (v : Vec T) (p : Nat) (x : T) :
    (InsertCopy E v p x).vec.size_ ≤ (InsertCopy E v p x).vec.capacity_ := by
  unfold InsertCopy
  split
  · simp only []; omega
  · simp only [swap]
    exact Resize_inv E (ofSize E (v.capacity_ * 2)) (v.size_ + 1) (by simp [ofSize])

theorem InsertMove_inv (E : Elem T) (v : Vec T) (p : Nat) (x : T) :
    (InsertMove E v p x).vec.size_ ≤ (InsertMove E v p x).vec.capacity_ := by
  unfold InsertMove
  split
  · simp only []; omega
  · simp only [swap]
    exact Resize_inv E (ofSize E (v.capacity_ * 2)) (v.size_ + 1) (by simp [ofSize])

/-! ## Well-formed states are the reachable ones -/

theorem ofSize_WF (E : Elem T) (n : Nat) : WF (ofSize E n) := by
  rw [ofSize_eq]; exact ⟨by simp, le_refl _⟩

theorem constructors_WF (E : Elem T) (other : Vec T) :
    WF (empty : Vec T) ∧ (∀ n, WF (ofSize E n)) ∧ (∀ n x, WF (ofSizeValue E n x)) ∧
      (∀ init, WF (ofInit E init)) ∧ WF (copyCtor E other) ∧
      (∀ k, WF (ofReserve E k)) ∧ (WF other → WF (moveCtor other).1) ∧
      WF (moveCtor other).2 := by
  have he : WF (empty : Vec T) := ⟨rfl, le_refl _⟩
  refine ⟨he, ofSize_WF E, ?_, ?_, ?_, ?_, fun h => h, ⟨rfl, le_refl _⟩⟩
  · intro n x; rw [ofSizeValue_eq]; exact ⟨by simp, le_refl _⟩
  · intro init; rw [ofInit_eq]; exact ⟨rfl, le_refl _⟩
  · exact ⟨by simp [copyCtor, swap, ofSize], by simp [copyCtor, swap, ofSize]⟩
  · intro k; exact Reserve_WF E empty k he

theorem InsertCopy_WF (E : Elem T) (v : Vec T) (p : Nat) (x : T) (h : WF v) :
    WF (InsertCopy E v p x).vec := by
  unfold InsertCopy
  split
  · exact ⟨by simp [h.1], by simp only []; omega⟩
  · have h1 := Resize_WF E (ofSize E (v.capacity_ * 2)) (v.size_ + 1) (ofSize_WF E _)
    exact ⟨by simp [swap, cend, Ptr.diff, h1.1], h1.2⟩

theorem InsertMove_WF (E : Elem T) (v : Vec T) (p : Nat) (x : T) (h : WF v) :
    WF (InsertMove E v p x).vec := by
  unfold InsertMove
  split
  · exact ⟨by simp [h.1], by simp only []; omega⟩
  · have h1 := Resize_WF E (ofSize E (v.capacity_ * 2)) (v.size_ + 1) (ofSize_WF E _)
    exact ⟨by simp [swap, Ptr.subscript, begin, h1.1], h1.2⟩

theorem mutators_WF (E : Elem T) (v : Vec T) (h : WF v) :
    WF (Clear v) ∧ WF (PopBack v) ∧ (∀ p, WF (Erase v p).vec) ∧
      (∀ rhs, WF rhs → WF (copyAssign E v (Rhs.other rhs)) ∧
        WF (moveAssign v (Rhs.other rhs)).1 ∧ WF (moveAssign v (Rhs.other rhs)).2) := by
  obtain ⟨h1, h2⟩ := h
  refine ⟨⟨h1, Nat.zero_le _⟩, ⟨h1, ?_⟩, ?_, ?_⟩
  · simp only [PopBack]; omega
  · intro p; exact ⟨by simp [Erase, h1], by simp only [Erase]; omega⟩
  · intro rhs hr
    exact ⟨⟨by simp [copyAssign, swap, ofSize], by simp [copyAssign, swap, ofSize]⟩, hr,
      ⟨rfl, le_refl _⟩⟩

/-! ## The doubling schedule -/

theorem pushAll_pow2 (E : Elem T) (xs : List T) :
    ∀ (v : Vec T) (k : Nat), v.capacity_ = 2 ^ k → 1 ≤ k → v.size_ ≤ 2 ^ k →
      (k = 1 ∨ 2 ^ (k - 1) < v.size_) →
      ∃ k', k ≤ k' ∧ (pushAll E v xs).capacity_ = 2 ^ k' ∧ (pushAll E v xs).size_ ≤ 2 ^ k' ∧
        (k' = 1 ∨ 2 ^ (k' - 1) < (pushAll E v xs).size_) ∧ growthCount E v xs = k' - k := by
  induction xs with
  | nil =>
    intro v k hc hk hs hl
    exact ⟨k, le_refl _, hc, hs, hl, by simp [growthCount]⟩
  | cons x xs ih =>
    intro v k hc hk hs hl
    have hpos : 0 < 2 ^ k := pow_pos (by norm_num) k
    have hsucc : 2 ^ (k + 1) = 2 ^ k * 2 := pow_succ 2 k
    by_cases hfull : v.capacity_ = v.size_
    · have hcap : (PushBack E v x).capacity_ = 2 ^ (k + 1) := by
        rw [PushBack_capacity, if_pos hfull, if_neg (by omega)]; omega
      obtain ⟨k', h1, h2, h3, h4, h5⟩ := ih (PushBack E v x) (k + 1) hcap (by omega)
        (by rw [PushBack_size]; omega)
        (Or.inr (by rw [PushBack_size]; simp only [Nat.add_sub_cancel]; omega))
      refine ⟨k', by omega, h2, h3, h4, ?_⟩
      rw [growthCount, if_neg (by omega), h5]; omega
    · have hcap : (PushBack E v x).capacity_ = v.capacity_ := by
        rw [PushBack_capacity, if_neg hfull]
      obtain ⟨k', h1, h2, h3, h4, h5⟩ := ih (PushBack E v x) k (by rw [hcap, hc]) hk
        (by rw [PushBack_size]; omega)
        (by rw [PushBack_size]; rcases hl with hl | hl
            · exact Or.inl hl
            · exact Or.inr (by omega))
      refine ⟨k', h1, h2, h3, h4, ?_⟩
      rw [growthCount, if_pos hcap, h5]; omega

theorem InsertMove_inplace (E : Elem T) (v : Vec T) (p : Nat) (x : T)
    (hc : v.size_ + 1 ≤ v.capacity_) :
    InsertMove E v p x =
      { vec := { items_ := (copyBackwardWithin v.items_ v.size_ (v.size_ + 1)
                    (v.size_ - p)).set p x,
                 size_ := v.size_ + 1, capacity_ := v.capacity_ },
        blk := Block.self, ret := ⟨Block.self, p⟩, defined := true } := by
  unfold InsertMove
  rw [if_pos hc]
  simp [begin]

/-! ## Erase -/

theorem live_length (v : Vec T) (h : WF v) : (live v).length = v.size_ := by
  unfold live; rw [List.length_take]; have := h.1; have := h.2; omega

theorem live_getElem? (v : Vec T) (i : Nat) (hi : i < v.size_) :
    (live v)[i]? = v.items_[i]? := by
  unfold live; rw [List.getElem?_take, if_pos hi]

theorem Erase_cells (v : Vec T) (p : Nat) (h : WF v) (hp : p < v.size_) (i : Nat) :
    (Erase v p).vec.items_[i]? =
      if p ≤ i ∧ i + 1 < v.size_ then v.items_[i + 1]? else v.items_[i]? := by
  obtain ⟨h1, h2⟩ := h
  simp only [Erase]
  rw [getElem?_copyWithin (v.size_ - (p + 1)) v.items_ (p + 1) p i rfl (by omega)]
  by_cases hc : p ≤ i ∧ i + 1 < v.size_
  · rw [if_pos (by omega), if_pos hc]
  · rw [if_neg (by omega), if_neg hc]

/-! ## Insert by the rvalue overload -/

theorem InsertMove_grow (E : Elem T) (v : Vec T) (p : Nat) (x : T)
    (hc : ¬ v.size_ + 1 ≤ v.capacity_) :
    InsertMove E v p x =
      { vec := { items_ := copyBackwardRange v.items_ v.size_
                    ((copyRange v.items_ 0
                      (Resize E (ofSize E (v.capacity_ * 2)) (v.size_ + 1)).items_ 0 p).set p x)
                    (Resize E (ofSize E (v.capacity_ * 2)) (v.size_ + 1)).size_ (v.size_ - p),
                 size_ := (Resize E (ofSize E (v.capacity_ * 2)) (v.size_ + 1)).size_,
                 capacity_ := (Resize E (ofSize E (v.capacity_ * 2)) (v.size_ + 1)).capacity_ },
        blk := Block.fresh, ret := ⟨Block.fresh, p⟩, defined := true } := by
  unfold InsertMove
  rw [if_neg hc]
  simp [Ptr.subscript, begin, swap]

theorem InsertMove_size (E : Elem T) (v : Vec T) (p : Nat) (x : T) :
    (InsertMove E v p x).vec.size_ = v.size_ + 1 := by
  by_cases hc : v.size_ + 1 ≤ v.capacity_
  · rw [InsertMove_inplace E v p x hc]
  · rw [InsertMove_grow E v p x hc]
    exact Resize_size E _ _

theorem InsertMove_ret (E : Elem T) (v : Vec T) (p : Nat) (x : T) :
    (InsertMove E v p x).ret = ⟨(InsertMove E v p x).blk, p⟩ ∧
      (InsertMove E v p x).defined = true := by
  by_cases hc : v.size_ + 1 ≤ v.capacity_
  · rw [InsertMove_inplace E v p x hc]; exact ⟨rfl, rfl⟩
  · rw [InsertMove_grow E v p x hc]; exact ⟨rfl, rfl⟩

/-- The cells of the vector after Insert by the rvalue overload, in place or on the block of
`new_vector`: `x` at `p`, the old cells below `p`, the old cells from `p` on one higher. -/
theorem InsertMove_cells (E : Elem T) (v : Vec T) (p : Nat) (x : T) (h : WF v)
    (hp : p ≤ v.size_) (i : Nat) (hi : i ≤ v.size_) :
    (InsertMove E v p x).vec.items_[i]? =
      if i = p then some x else if p < i then v.items_[i - 1]? else v.items_[i]? := by
  by_cases hc : v.size_ + 1 ≤ v.capacity_
  · rw [InsertMove_inplace E v p x hc]
    show ((copyBackwardWithin v.items_ v.size_ (v.size_ + 1) (v.size_ - p)).set p x)[i]? = _
    rw [Insert_inplace_cells v p x h hc hp]
    by_cases h1 : i = p
    · rw [if_pos h1, if_pos h1]
    · rw [if_neg h1, if_neg h1]
      by_cases h2 : p < i
      · rw [if_pos (by omega), if_pos h2]
      · rw [if_neg (by omega), if_neg h2]
  · obtain ⟨hl, hs⟩ := h
    have hwf := Resize_WF E (ofSize E (v.capacity_ * 2)) (v.size_ + 1) (ofSize_WF E _)
    have hsz := Resize_size E (ofSize E (v.capacity_ * 2)) (v.size_ + 1)
    obtain ⟨hl', hs'⟩ := hwf
    rw [hsz] at hs'
    rw [InsertMove_grow E v p x hc]
    simp only [hsz]
    rw [getElem?_copyBackwardRange v.items_ (v.size_ - p) v.size_ _ (v.size_ + 1) i
      (by omega) (by omega) (by omega) (by simp; omega)]
    by_cases h1 : i = p
    · subst h1
      rw [if_neg (by omega), if_pos rfl, List.getElem?_set_self (by simp; omega)]
    · rw [if_neg h1]
      by_cases h2 : p < i
      · have h4 : v.size_ - (v.size_ + 1 - i) = i - 1 := by omega
        rw [if_pos (by omega), if_pos h2, h4]
      · rw [if_neg (by omega), if_neg h2, List.getElem?_set_ne (by omega),
          getElem?_copyRange v.items_ p 0 _ 0 i (by omega) (by omega), if_pos (by omega)]
        simp

theorem InsertMove_live (E : Elem T) (v : Vec T) (p : Nat) (x : T) (h : WF v)
    (hp : p ≤ v.size_) :
    live (InsertMove E v p x).vec = (live v).take p ++ x :: (live v).drop p := by
  have hlen := live_length v h
  apply List.ext_getElem?
  intro i
  have hlt : ((live v).take p).length = p := by rw [List.length_take, hlen]; omega
  rw [List.getElem?_append, hlt]
  unfold live
  rw [InsertMove_size, List.getElem?_take]
  by_cases h1 : i < p
  · rw [if_pos (by omega), if_pos h1, InsertMove_cells E v p x h hp i (by omega),
      if_neg (by omega), if_neg (by omega), List.getElem?_take, if_pos h1,
      List.getElem?_take, if_pos (by omega)]
  · rw [if_neg h1]
    by_cases h2 : i = p
    · subst h2
      rw [if_pos (by omega), InsertMove_cells E v i x h hp i hp, if_pos rfl]
      simp
    · obtain ⟨k, hk⟩ : ∃ k, i - p = k + 1 := ⟨i - p - 1, by omega⟩
      rw [hk, List.getElem?_cons_succ, List.getElem?_drop, List.getElem?_take]
      by_cases h3 : i < v.size_ + 1
      · rw [if_pos h3, InsertMove_cells E v p x h hp i (by omega), if_neg h2,
          if_pos (by omega), if_pos (by omega)]
        congr 1; omega
      · rw [if_neg h3, if_neg (by omega)]

/-- Erasing at `p` what the rvalue overload inserted at `p` gives back the size and the
live elements, with or without a spare cell before the insertion. -/
theorem InsertMove_Erase (E : Elem T) (v : Vec T) (p : Nat) (x : T) (h : WF v)
    (hp : p ≤ v.size_) :
    (Erase (InsertMove E v p x).vec p).vec.size_ = v.size_ ∧
      live (Erase (InsertMove E v p x).vec p).vec = live v := by
  have hwf := InsertMove_WF E v p x h
  have hsz := InsertMove_size E v p x
  have hsz' : (Erase (InsertMove E v p x).vec p).vec.size_ = v.size_ := by
    simp only [Erase]; omega
  refine ⟨hsz', ?_⟩
  apply List.ext_getElem?
  intro i
  unfold live
  rw [hsz', List.getElem?_take, List.getElem?_take]
  by_cases hi : i < v.size_
  · rw [if_pos hi, if_pos hi, Erase_cells _ p hwf (by omega)]
    by_cases hpi : p ≤ i
    · rw [if_pos (by omega), InsertMove_cells E v p x h hp (i + 1) (by omega),
        if_neg (by omega), if_pos (by omega)]
      simp
    · rw [if_neg (by omega), InsertMove_cells E v p x h hp i (by omega),
        if_neg (by omega), if_neg (by omega)]
  · rw [if_neg hi, if_neg hi]

/-! ## The claims -/

/-- C1: from a state with `size_ ≤ capacity_`, every mutator (PushBack, PopBack on a non-empty
vector, both Insert overloads at a position in `[0, size]`, Erase at a position in `[0, size)`,
Resize, Reserve, Clear, swap, copy-assignment and move-assignment, self-assignment included)
leaves `size_ ≤ capacity_`, and every constructor produces such a state. For Insert on a full
vector the two fields are those of `new_vector`, which `swap` installs. -/
theorem C1_size_le_capacity (E : Elem T) (v w : Vec T) (hv : v.size_ ≤ v.capacity_)
    (hw : w.size_ ≤ w.capacity_) :
    (∀ x, (PushBack E v x).size_ ≤ (PushBack E v x).capacity_) ∧
    (0 < v.size_ → (PopBack v).size_ ≤ (PopBack v).capacity_) ∧
    (∀ p x, p ≤ v.size_ →
      (InsertCopy E v p x).vec.size_ ≤ (InsertCopy E v p x).vec.capacity_ ∧
      (InsertMove E v p x).vec.size_ ≤ (InsertMove E v p x).vec.capacity_) ∧
    (∀ p, p < v.size_ → (Erase v p).vec.size_ ≤ (Erase v p).vec.capacity_) ∧
    (∀ n, (Resize E v n).size_ ≤ (Resize E v n).capacity_) ∧
    (∀ n, (Reserve E v n).size_ ≤ (Reserve E v n).capacity_) ∧
    (Clear v).size_ ≤ (Clear v).capacity_ ∧
    ((swap v w).1.size_ ≤ (swap v w).1.capacity_ ∧
      (swap v w).2.size_ ≤ (swap v w).2.capacity_) ∧
    ((copyAssign E v (Rhs.other w)).size_ ≤ (copyAssign E v (Rhs.other w)).capacity_ ∧
      (copyAssign E v Rhs.this).size_ ≤ (copyAssign E v Rhs.this).capacity_) ∧
    ((moveAssign v (Rhs.other w)).1.size_ ≤ (moveAssign v (Rhs.other w)).1.capacity_ ∧
      (moveAssign v (Rhs.other w)).2.size_ ≤ (moveAssign v (Rhs.other w)).2.capacity_ ∧
      (moveAssign v Rhs.this).1.size_ ≤ (moveAssign v Rhs.this).1.capacity_) ∧
    ((empty : Vec T).size_ ≤ (empty : Vec T).capacity_ ∧
      (∀ n, (ofSize E n).size_ ≤ (ofSize E n).capacity_) ∧
      (∀ n x, (ofSizeValue E n x).size_ ≤ (ofSizeValue E n x).capacity_) ∧
      (∀ init, (ofInit E init).size_ ≤ (ofInit E init).capacity_) ∧
      (copyCtor E w).size_ ≤ (copyCtor E w).capacity_ ∧
      (∀ k, (ofReserve E k).size_ ≤ (ofReserve E k).capacity_) ∧
      (moveCtor w).1.size_ ≤ (moveCtor w).1.capacity_ ∧
      (moveCtor w).2.size_ ≤ (moveCtor w).2.capacity_) := by
  refine ⟨?_, ?_, ?_, ?_, ?_, ?_, ?_, ?_, ?_, ?_, ?_⟩
  · intro x
    rw [PushBack_size, PushBack_capacity]
    split
    · split <;> omega
    · omega
  · intro _; simp only [PopBack]; omega
  · intro p x _
    exact ⟨InsertCopy_inv E v p x, InsertMove_inv E v p x⟩
  · intro p _; simp only [Erase]; omega
  · intro n; exact Resize_inv E v n hv
  · intro n; exact Reserve_inv E v n hv
  · simp [Clear]
  · exact ⟨hw, hv⟩
  · exact ⟨by simp [copyAssign, swap, ofSize], hv⟩
  · exact ⟨hw, le_refl _, hv⟩
  · refine ⟨le_refl _, ?_, ?_, ?_, ?_, ?_, hw, le_refl _⟩
    · intro n; simp [ofSize]
    · intro n x; simp [ofSizeValue]
    · intro init; simp [ofInit]
    · simp [copyCtor, swap, ofSize]
    · intro k; exact Reserve_inv E empty k (le_refl _)

/-- C1 at the vectors `{1, 2}` (full) and `{5}` with one spare cell, over `Int`. -/
theorem C1_size_le_capacity_witness :
    ((⟨[1, 2], 2, 2⟩ : Vec Int).size_ ≤ (⟨[1, 2], 2, 2⟩ : Vec Int).capacity_) ∧
    (InsertMove ⟨0, 7⟩ (⟨[1, 2], 2, 2⟩ : Vec Int) 1 9).vec.size_
      ≤ (InsertMove ⟨0, 7⟩ (⟨[1, 2], 2, 2⟩ : Vec Int) 1 9).vec.capacity_ :=
  ⟨by decide,
   ((C1_size_le_capacity ⟨0, 7⟩ (⟨[1, 2], 2, 2⟩ : Vec Int) ⟨[5, 7], 1, 2⟩ (by decide)
      (by decide)).2.2.1 1 9 (by decide)).2⟩

/-- C2: PushBack of the elements of `xs`, in order, on a default-constructed vector gives
`GetSize() = xs.length` and the live elements `xs`; one `PushBack(x)` on any vector puts `x`
at index `size_`, keeps every element below that index and adds one to the size. -/
theorem C2_PushBack_appends (E : Elem T) :
    (∀ xs : List T, GetSize (pushAll E empty xs) = xs.length ∧
      live (pushAll E empty xs) = xs) ∧
    (∀ (v : Vec T) (x : T), WF v →
      (PushBack E v x).items_[v.size_]? = some x ∧
      (∀ i, i < v.size_ → (PushBack E v x).items_[i]? = v.items_[i]?) ∧
      GetSize (PushBack E v x) = GetSize v + 1) := by
  have hwf : WF (empty : Vec T) := ⟨rfl, le_refl _⟩
  constructor
  · intro xs
    constructor
    · simp [GetSize, pushAll_size, empty]
    · rw [pushAll_live E xs empty hwf]; simp [live, empty]
  · intro v x h
    exact ⟨PushBack_getElem?_size E v x h, fun i hi => PushBack_getElem?_lt E v x h i hi,
      PushBack_size E v x⟩

/-- C2 at `1, 2, 3` pushed on the empty vector, and at `{1, 2}` full, over `Int`. -/
theorem C2_PushBack_appends_witness :
    live (pushAll ⟨0, 7⟩ (empty : Vec Int) [1, 2, 3]) = [1, 2, 3] ∧
    WF (⟨[1, 2], 2, 2⟩ : Vec Int) ∧
    (PushBack ⟨0, 7⟩ (⟨[1, 2], 2, 2⟩ : Vec Int) 9).items_[2]? = some 9 :=
  ⟨((C2_PushBack_appends (⟨0, 7⟩ : Elem Int)).1 [1, 2, 3]).2, by decide,
   ((C2_PushBack_appends (⟨0, 7⟩ : Elem Int)).2 ⟨[1, 2], 2, 2⟩ 9 (by decide)).1⟩

/-- C3: a PushBack on a vector with `size_ = capacity_` makes the capacity 2 when it was 0 and
twice the old capacity otherwise, a PushBack with `size_ < capacity_` keeps the capacity; so
after `N ≥ 1` PushBacks on a default-constructed vector the capacity is the least power of two
that is at least `max N 2`, and at most `⌊log₂ N⌋ + 1` of these PushBacks change the
capacity. -/
theorem C3_growth_schedule (E : Elem T) :
    (∀ (v : Vec T) (x : T), v.size_ = v.capacity_ →
      (PushBack E v x).capacity_ = if v.capacity_ = 0 then 2 else 2 * v.capacity_) ∧
    (∀ (v : Vec T) (x : T), v.size_ < v.capacity_ →
      (PushBack E v x).capacity_ = v.capacity_) ∧
    (∀ xs : List T, 1 ≤ xs.length →
      IsLeast {c : Nat | (∃ k, c = 2 ^ k) ∧ max xs.length 2 ≤ c}
        (pushAll E empty xs).capacity_ ∧
      growthCount E empty xs ≤ Nat.log 2 xs.length + 1) := by
  refine ⟨?_, ?_, ?_⟩
  · intro v x h
    rw [PushBack_capacity, if_pos h.symm]
    split
    · rfl
    · omega
  · intro v x h
    rw [PushBack_capacity, if_neg (by omega)]
  · intro xs hlen
    cases xs with
    | nil => simp at hlen
    | cons x rest =>
      have hcap : (PushBack E (empty : Vec T) x).capacity_ = 2 ^ 1 := by
        rw [PushBack_capacity]; rfl
      have hsz : (PushBack E (empty : Vec T) x).size_ = 1 := by rw [PushBack_size]; rfl
      obtain ⟨k', h1, h2, h3, h4, h5⟩ := pushAll_pow2 E rest (PushBack E empty x) 1 hcap
        (le_refl _) (by rw [hsz]; norm_num) (Or.inl rfl)
      have hN : (pushAll E (PushBack E empty x) rest).size_ = (x :: rest).length := by
        rw [pushAll_size, hsz, List.length_cons]; omega
      rw [hN] at h3 h4
      have h2le : 2 ≤ 2 ^ k' := by
        calc 2 = 2 ^ 1 := rfl
          _ ≤ 2 ^ k' := Nat.pow_le_pow_right (by norm_num) h1
      refine ⟨⟨⟨⟨k', h2⟩, ?_⟩, ?_⟩, ?_⟩
      · show max (x :: rest).length 2 ≤ (pushAll E (PushBack E empty x) rest).capacity_
        rw [h2]; exact max_le h3 h2le
      · rintro c ⟨⟨j, rfl⟩, hj⟩
        show (pushAll E (PushBack E empty x) rest).capacity_ ≤ 2 ^ j
        rw [h2]
        rcases h4 with h4 | h4
        · subst h4; exact le_trans (le_max_right _ _) hj
        · have hlt : 2 ^ (k' - 1) < 2 ^ j := lt_of_lt_of_le h4 (le_trans (le_max_left _ _) hj)
          have := (Nat.pow_lt_pow_iff_right (by norm_num : 1 < 2)).mp hlt
          exact Nat.pow_le_pow_right (by norm_num) (by omega)
      · have hg : growthCount E empty (x :: rest) = k' := by
          have hne : (PushBack E (empty : Vec T) x).capacity_ ≠ (empty : Vec T).capacity_ := by
            rw [hcap]; simp [empty]
          rw [growthCount, if_neg hne, h5]
          omega
        rw [hg]
        rcases h4 with h4 | h4
        · omega
        · have := Nat.le_log_of_pow_le (by norm_num : 1 < 2) (le_of_lt h4)
          omega

/-- C3 at five PushBacks on the empty vector over `Int`: capacity 8, three of them grow. -/
theorem C3_growth_schedule_witness :
    1 ≤ [1, 2, 3, 4, (5 : Int)].length ∧
    (pushAll ⟨0, 7⟩ (empty : Vec Int) [1, 2, 3, 4, 5]).capacity_ = 8 ∧
    growthCount ⟨0, 7⟩ (empty : Vec Int) [1, 2, 3, 4, 5] = 3 ∧
    growthCount ⟨0, 7⟩ (empty : Vec Int) [1, 2, 3, 4, 5]
      ≤ Nat.log 2 [1, 2, 3, 4, (5 : Int)].length + 1 :=
  ⟨by decide, by decide, by decide,
   ((C3_growth_schedule (⟨0, 7⟩ : Elem Int)).2.2 [1, 2, 3, 4, 5] (by decide)).2⟩

/-- C4: `Reserve(newCapacity)` with `newCapacity ≤ capacity_` leaves the vector as it is
(size, capacity and every element); otherwise the capacity becomes exactly `newCapacity`, the
size stays and the live elements are the same values in the same order. -/
theorem C4_Reserve (E : Elem T) (v : Vec T) (newCapacity : Nat) (h : WF v) :
    (newCapacity ≤ v.capacity_ → Reserve E v newCapacity = v) ∧
    (v.capacity_ < newCapacity →
      GetCapacity (Reserve E v newCapacity) = newCapacity ∧
      GetSize (Reserve E v newCapacity) = GetSize v ∧
      live (Reserve E v newCapacity) = live v) := by
  constructor
  · intro hle
    unfold Reserve
    rw [if_pos hle]
  · intro hlt
    exact Reserve_grow E v newCapacity h hlt

/-- C4 at `{1, 2}` in a block of three cells, reserved to five and to two, over `Int`. -/
theorem C4_Reserve_witness :
    WF (⟨[1, 2, 3], 2, 3⟩ : Vec Int) ∧
    (GetCapacity (Reserve ⟨0, 7⟩ (⟨[1, 2, 3], 2, 3⟩ : Vec Int) 5) = 5 ∧
      GetSize (Reserve ⟨0, 7⟩ (⟨[1, 2, 3], 2, 3⟩ : Vec Int) 5)
        = GetSize (⟨[1, 2, 3], 2, 3⟩ : Vec Int) ∧
      live (Reserve ⟨0, 7⟩ (⟨[1, 2, 3], 2, 3⟩ : Vec Int) 5)
        = live (⟨[1, 2, 3], 2, 3⟩ : Vec Int)) ∧
    Reserve ⟨0, 7⟩ (⟨[1, 2, 3], 2, 3⟩ : Vec Int) 2 = ⟨[1, 2, 3], 2, 3⟩ :=
  ⟨by decide,
   (C4_Reserve ⟨0, 7⟩ (⟨[1, 2, 3], 2, 3⟩ : Vec Int) 5 (by decide)).2 (by decide),
   (C4_Reserve ⟨0, 7⟩ (⟨[1, 2, 3], 2, 3⟩ : Vec Int) 2 (by decide)).1 (by decide)⟩

/-- C5: a default-constructed vector after `Reserve(k)`, which is also what the constructor
from `Reserve(k)` builds, has size 0 and capacity `k`; before each of `k` following PushBack
calls the test `capacity_ == size_` fails, after each of them the capacity is still `k`, and
after the last the size is `k`. -/
theorem C5_Reserve_then_PushBack (E : Elem T) (k : Nat) :
    GetSize (Reserve E (empty : Vec T) k) = 0 ∧
    GetCapacity (Reserve E (empty : Vec T) k) = k ∧
    ofReserve E k = Reserve E (empty : Vec T) k ∧
    (∀ xs : List T, xs.length < k →
      (pushAll E (Reserve E empty k) xs).capacity_ ≠ (pushAll E (Reserve E empty k) xs).size_) ∧
    (∀ xs : List T, xs.length ≤ k →
      GetCapacity (pushAll E (Reserve E empty k) xs) = k ∧
      GetSize (pushAll E (Reserve E empty k) xs) = xs.length) := by
  have hwf : WF (empty : Vec T) := ⟨rfl, le_refl _⟩
  have h0 : (Reserve E (empty : Vec T) k).size_ = 0 ∧
      (Reserve E (empty : Vec T) k).capacity_ = k := by
    by_cases hk : k = 0
    · subst hk; exact ⟨rfl, rfl⟩
    · have := Reserve_grow E (empty : Vec T) k hwf (by simp only [empty]; omega)
      exact ⟨this.2.1, this.1⟩
  have hpush : ∀ xs : List T, xs.length ≤ k →
      (pushAll E (Reserve E empty k) xs).capacity_ = k ∧
      (pushAll E (Reserve E empty k) xs).size_ = xs.length := by
    intro xs hxs
    constructor
    · rw [pushAll_capacity_of_le E xs _ (by rw [h0.1, h0.2]; omega), h0.2]
    · rw [pushAll_size, h0.1]; omega
  refine ⟨h0.1, h0.2, rfl, ?_, hpush⟩
  intro xs hxs
  obtain ⟨h1, h2⟩ := hpush xs (by omega)
  rw [h1, h2]; omega

/-- C5 at `k = 10` with ten PushBacks, over `Int`. -/
theorem C5_Reserve_then_PushBack_witness :
    [1, 2, 3, 4, 5, 6, 7, 8, 9, (10 : Int)].length ≤ 10 ∧
    GetCapacity (pushAll ⟨0, 7⟩ (Reserve ⟨0, 7⟩ empty 10)
      [1, 2, 3, 4, 5, 6, 7, 8, 9, (10 : Int)]) = 10 ∧
    GetSize (pushAll ⟨0, 7⟩ (Reserve ⟨0, 7⟩ empty 10)
      [1, 2, 3, 4, 5, 6, 7, 8, 9, (10 : Int)]) = [1, 2, 3, 4, 5, 6, 7, 8, 9, (10 : Int)].length :=
  ⟨by decide,
   (C5_Reserve_then_PushBack (⟨0, 7⟩ : Elem Int) 10).2.2.2.2
     [1, 2, 3, 4, 5, 6, 7, 8, 9, 10] (by decide)⟩

/-- C6: for `newSize > size_`, whatever the cells at and after `size_` hold and wherever
`newSize` lies against the capacity, `Resize(newSize)` gives size `newSize`, a capacity of at
least `newSize`, the elements below the old size unchanged and `Type()` at every index from
the old size up to `newSize`. -/
theorem C6_Resize_grow (E : Elem T) (v : Vec T) (newSize : Nat) (h : WF v)
    (hn : v.size_ < newSize) :
    GetSize (Resize E v newSize) = newSize ∧
    newSize ≤ GetCapacity (Resize E v newSize) ∧
    (∀ i, i < v.size_ → (Resize E v newSize).items_[i]? = v.items_[i]?) ∧
    (∀ i, v.size_ ≤ i → i < newSize → (Resize E v newSize).items_[i]? = some E.dflt) := by
  have hsz := Resize_size E v newSize
  have hwf := Resize_WF E v newSize h
  have hlive := Resize_live_grow E v newSize h hn
  have hlen : (live v).length = v.size_ := by
    unfold live; rw [List.length_take]; have := h.1; have := h.2; omega
  have hcell : ∀ i, i < newSize →
      (Resize E v newSize).items_[i]? =
        (live v ++ List.replicate (newSize - v.size_) E.dflt)[i]? := by
    intro i hi
    rw [← hlive]; unfold live
    rw [hsz, List.getElem?_take, if_pos hi]
  refine ⟨hsz, ?_, ?_, ?_⟩
  · have := hwf.2; rw [hsz] at this; exact this
  · intro i hi
    rw [hcell i (by omega), List.getElem?_append, if_pos (by omega)]
    unfold live; rw [List.getElem?_take, if_pos hi]
  · intro i h1 h2
    rw [hcell i h2, List.getElem?_append, if_neg (by omega), hlen,
      List.getElem?_replicate, if_pos (by omega)]

/-- C6 at `[1, 2, 3]` with size 3 and capacity 3, resized to 5, over `Int`. -/
theorem C6_Resize_grow_witness :
    WF (⟨[1, 2, 3], 3, 3⟩ : Vec Int) ∧
    live (Resize ⟨0, 7⟩ (⟨[1, 2, 3], 3, 3⟩ : Vec Int) 5) = [1, 2, 3, 0, 0] ∧
    GetSize (Resize ⟨0, 7⟩ (⟨[1, 2, 3], 3, 3⟩ : Vec Int) 5) = 5 ∧
    5 ≤ GetCapacity (Resize ⟨0, 7⟩ (⟨[1, 2, 3], 3, 3⟩ : Vec Int) 5) :=
  ⟨by decide, by decide,
   (C6_Resize_grow ⟨0, 7⟩ (⟨[1, 2, 3], 3, 3⟩ : Vec Int) 5 (by decide) (by decide)).1,
   (C6_Resize_grow ⟨0, 7⟩ (⟨[1, 2, 3], 3, 3⟩ : Vec Int) 5 (by decide) (by decide)).2.1⟩

/-- C7: `Resize(newSize)` with `newSize ≤ size_` gives size `newSize`, the same capacity and
the same elements below `newSize`; with `size_ < newSize < capacity_` it keeps the capacity. -/
theorem C7_Resize_keeps_capacity (E : Elem T) (v : Vec T) (newSize : Nat) :
    (newSize ≤ v.size_ →
      GetSize (Resize E v newSize) = newSize ∧
      GetCapacity (Resize E v newSize) = GetCapacity v ∧
      (∀ i, i < newSize → (Resize E v newSize).items_[i]? = v.items_[i]?)) ∧
    (v.size_ < newSize → newSize < v.capacity_ →
      GetCapacity (Resize E v newSize) = GetCapacity v) := by
  constructor
  · intro hle
    unfold Resize
    rw [if_pos hle]
    exact ⟨rfl, rfl, fun _ _ => rfl⟩
  · intro h1 h2
    unfold Resize GetCapacity
    rw [if_neg (by omega), if_pos h2, pushDefaults_eq_pushAll,
      pushAll_capacity_of_le E _ v (by rw [List.length_replicate]; omega)]

/-- C7 at `[1, 2, 3, 4]` in a block of six cells, resized to 2 and to 5, over `Int`. -/
theorem C7_Resize_keeps_capacity_witness :
    (GetSize (Resize ⟨0, 7⟩ (⟨[1, 2, 3, 4, 7, 7], 4, 6⟩ : Vec Int) 2) = 2 ∧
      GetCapacity (Resize ⟨0, 7⟩ (⟨[1, 2, 3, 4, 7, 7], 4, 6⟩ : Vec Int) 2)
        = GetCapacity (⟨[1, 2, 3, 4, 7, 7], 4, 6⟩ : Vec Int) ∧
      (∀ i, i < 2 → (Resize ⟨0, 7⟩ (⟨[1, 2, 3, 4, 7, 7], 4, 6⟩ : Vec Int) 2).items_[i]?
        = (⟨[1, 2, 3, 4, 7, 7], 4, 6⟩ : Vec Int).items_[i]?)) ∧
    GetCapacity (Resize ⟨0, 7⟩ (⟨[1, 2, 3, 4, 7, 7], 4, 6⟩ : Vec Int) 5)
      = GetCapacity (⟨[1, 2, 3, 4, 7, 7], 4, 6⟩ : Vec Int) :=
  ⟨(C7_Resize_keeps_capacity ⟨0, 7⟩ (⟨[1, 2, 3, 4, 7, 7], 4, 6⟩ : Vec Int) 2).1 (by decide),
   (C7_Resize_keeps_capacity ⟨0, 7⟩ (⟨[1, 2, 3, 4, 7, 7], 4, 6⟩ : Vec Int) 5).2 (by decide)
     (by decide)⟩

/-- Insert by the const-reference overload, whatever the vector: its body calls `cend()`,
whose `return &end;` does not type-check, so no program can make the call. -/
theorem InsertCopy_undefined (E : Elem T) (v : Vec T) (p : Nat) (x : T) :
    (InsertCopy E v p x).defined = false := by
  unfold InsertCopy
  split <;> rfl

/-- Insert by the rvalue overload where one more element fits: size `S + 1`, the same
capacity, `x` at `p`, the cells below `p` unchanged, the old cells from `p` on one higher,
and the returned iterator at index `p` of the vector's block. -/
theorem InsertMove_in_place (E : Elem T) (v : Vec T) (p : Nat) (x : T) (h : WF v)
    (hc : v.size_ + 1 ≤ v.capacity_) (hp : p ≤ v.size_) :
    GetSize (InsertMove E v p x).vec = GetSize v + 1 ∧
    GetCapacity (InsertMove E v p x).vec = GetCapacity v ∧
    (InsertMove E v p x).vec.items_[p]? = some x ∧
    (∀ i, i < p → (InsertMove E v p x).vec.items_[i]? = v.items_[i]?) ∧
    (∀ i, p ≤ i → i < v.size_ → (InsertMove E v p x).vec.items_[i + 1]? = v.items_[i]?) ∧
    (InsertMove E v p x).ret = ⟨(InsertMove E v p x).blk, p⟩ ∧
    (InsertMove E v p x).defined = true := by
  refine ⟨InsertMove_size E v p x, by rw [InsertMove_inplace E v p x hc]; rfl, ?_, ?_, ?_,
    (InsertMove_ret E v p x).1, (InsertMove_ret E v p x).2⟩
  · rw [InsertMove_cells E v p x h hp p hp, if_pos rfl]
  · intro i hi
    rw [InsertMove_cells E v p x h hp i (by omega), if_neg (by omega), if_neg (by omega)]
  · intro i h1 h2
    rw [InsertMove_cells E v p x h hp (i + 1) (by omega), if_neg (by omega),
      if_pos (by omega)]
    simp

/-- C8: on `{1, 2, 4, 5}` with capacity 5 the const-reference overload
`Insert(cbegin() + 2, 9)` is no call a program can make, because `cend()` in its body does
not type-check; the rvalue overload `Insert(begin() + 2, 9)` gives `{1, 2, 9, 4, 5}` with
the capacity still 5. -/
theorem C8_InsertCopy_not_instantiable :
    cendTypeChecks = false ∧
    (InsertCopy ⟨0, 7⟩ (⟨[1, 2, 4, 5, 7], 4, 5⟩ : Vec Int) 2 9).defined = false ∧
    InsertMove ⟨0, 7⟩ (⟨[1, 2, 4, 5, 7], 4, 5⟩ : Vec Int) 2 9
      = ⟨⟨[1, 2, 9, 4, 5], 5, 5⟩, Block.self, ⟨Block.self, 2⟩, true⟩ := by
  decide

/-- Insert by the const-reference overload on a vector without a spare cell: the suffix move
ends at `cend()`, which is not a position of the vector's block, for every input. -/
theorem InsertCopy_full_undefined (E : Elem T) (v : Vec T) (p : Nat) (x : T)
    (hc : ¬ v.size_ + 1 ≤ v.capacity_) : (InsertCopy E v p x).defined = false := by
  unfold InsertCopy
  rw [if_neg hc]
  rfl

/-- C9: on the full vector `{1, 2}` the const-reference overload `Insert(cbegin() + 1, 9)`
does not give `{1, 9, 2}`: `cend()` is the address of a local variable, the range
`[pos, cend())` is no range of the block, the old suffix is not moved behind the inserted 9
and the call has a step without defined operands. -/
theorem C9_InsertCopy_full_loses_suffix :
    cend Block.self (⟨[1, 2], 2, 2⟩ : Vec Int) ≠ end_ Block.self (⟨[1, 2], 2, 2⟩ : Vec Int) ∧
    InsertCopy ⟨0, 7⟩ (⟨[1, 2], 2, 2⟩ : Vec Int) 1 9
      = ⟨⟨[1, 9, 0, 0], 3, 4⟩, Block.fresh, ⟨Block.fresh, 1⟩, false⟩ ∧
    live (InsertCopy ⟨0, 7⟩ (⟨[1, 2], 2, 2⟩ : Vec Int) 1 9).vec ≠ [1, 9, 2] := by
  decide

/-- C10: on a full vector, the empty one with capacity 0 included, the rvalue overload
Insert at a position `p ≤ S` gives size `S + 1` and the live elements: the old ones below
`p`, then `x` at `p`, then the old ones from `p` on, in order; the returned iterator is at
index `p` of the new block and the element there is `x`. -/
theorem C10_InsertMove_full (E : Elem T) (v : Vec T) (p : Nat) (x : T) (h : WF v)
    (hf : v.size_ = v.capacity_) (hp : p ≤ v.size_) :
    ¬ (v.capacity_ ≥ v.size_ + 1) ∧
    GetSize (InsertMove E v p x).vec = GetSize v + 1 ∧
    (∀ i, i < p → (InsertMove E v p x).vec.items_[i]? = v.items_[i]?) ∧
    (InsertMove E v p x).vec.items_[p]? = some x ∧
    (∀ i, p ≤ i → i < v.size_ → (InsertMove E v p x).vec.items_[i + 1]? = v.items_[i]?) ∧
    live (InsertMove E v p x).vec = (live v).take p ++ x :: (live v).drop p ∧
    (InsertMove E v p x).ret = ⟨(InsertMove E v p x).blk, p⟩ ∧
    (InsertMove E v p x).blk = Block.fresh ∧
    (InsertMove E v p x).vec.items_[(InsertMove E v p x).ret.off]? = some x ∧
    (InsertMove E v p x).defined = true := by
  have hc : ¬ v.size_ + 1 ≤ v.capacity_ := by omega
  have hx : (InsertMove E v p x).vec.items_[p]? = some x := by
    rw [InsertMove_cells E v p x h hp p hp, if_pos rfl]
  refine ⟨by omega, InsertMove_size E v p x, ?_, hx, ?_, InsertMove_live E v p x h hp,
    (InsertMove_ret E v p x).1, by rw [InsertMove_grow E v p x hc], ?_,
    (InsertMove_ret E v p x).2⟩
  · intro i hi
    rw [InsertMove_cells E v p x h hp i (by omega), if_neg (by omega), if_neg (by omega)]
  · intro i h1 h2
    rw [InsertMove_cells E v p x h hp (i + 1) (by omega), if_neg (by omega),
      if_pos (by omega)]
    simp
  · rw [(InsertMove_ret E v p x).1]; exact hx

/-- C10 at the full vector `{1, 2}`, inserting 9 at index 1, and at the empty vector, over
`Int`. -/
theorem C10_InsertMove_full_witness :
    WF (⟨[1, 2], 2, 2⟩ : Vec Int) ∧
    live (InsertMove ⟨0, 7⟩ (⟨[1, 2], 2, 2⟩ : Vec Int) 1 9).vec = [1, 9, 2] ∧
    live (InsertMove ⟨0, 7⟩ (empty : Vec Int) 0 9).vec = [9] ∧
    (InsertMove ⟨0, 7⟩ (⟨[1, 2], 2, 2⟩ : Vec Int) 1 9).vec.items_[1]? = some 9 :=
  ⟨by decide, by decide, by decide,
   (C10_InsertMove_full ⟨0, 7⟩ (⟨[1, 2], 2, 2⟩ : Vec Int) 1 9 (by decide) (by decide)
      (by decide)).2.2.2.1⟩

/-- C11: on a vector of size `S ≥ 1`, Erase at a position `p < S` (the two overloads have one
embedding) gives size `S - 1`, the same capacity, the elements below `p` unchanged and at
each `i` in `[p, S - 1)` the old element of `i + 1`; the returned iterator is at index `p`
of the vector's block, which is `end()` when the last element was erased. -/
theorem C11_Erase (v : Vec T) (p : Nat) (h : WF v) (hp : p < v.size_) :
    GetSize (Erase v p).vec = GetSize v - 1 ∧
    GetCapacity (Erase v p).vec = GetCapacity v ∧
    (∀ i, i < p → (Erase v p).vec.items_[i]? = v.items_[i]?) ∧
    (∀ i, p ≤ i → i < v.size_ - 1 → (Erase v p).vec.items_[i]? = v.items_[i + 1]?) ∧
    (Erase v p).ret = ⟨(Erase v p).blk, p⟩ ∧
    (p = v.size_ - 1 → (Erase v p).ret = end_ (Erase v p).blk (Erase v p).vec) ∧
    (Erase v p).defined = true := by
  refine ⟨rfl, rfl, ?_, ?_, rfl, ?_, rfl⟩
  · intro i hi
    rw [Erase_cells v p h hp, if_neg (by omega)]
  · intro i h1 h2
    rw [Erase_cells v p h hp, if_pos (by omega)]
  · intro hl
    simp only [Erase, end_]
    rw [hl]

/-- C11 at `{1, 2, 3, 4, 5}`: erasing index 2 gives `{1, 2, 4, 5}`. -/
theorem C11_Erase_witness :
    WF (⟨[1, 2, 3, 4, 5], 5, 5⟩ : Vec Int) ∧
    live (Erase (⟨[1, 2, 3, 4, 5], 5, 5⟩ : Vec Int) 2).vec = [1, 2, 4, 5] ∧
    GetSize (Erase (⟨[1, 2, 3, 4, 5], 5, 5⟩ : Vec Int) 2).vec
      = GetSize (⟨[1, 2, 3, 4, 5], 5, 5⟩ : Vec Int) - 1 :=
  ⟨by decide, by decide,
   (C11_Erase (⟨[1, 2, 3, 4, 5], 5, 5⟩ : Vec Int) 2 (by decide) (by decide)).1⟩

/-- C12: `At(i)` throws `out_of_range` exactly when `i ≥ GetSize()`; for `i < GetSize()` it
returns the cell at index `i`, which a well-formed vector has, and in every case the vector
is what it was. An index in `[size, capacity)` throws although the block has the cell. -/
theorem C12_At (v : Vec T) (i : Nat) :
    ((At v i).2 = Except.error Error.out_of_range ↔ GetSize v ≤ i) ∧
    (i < GetSize v → (At v i).2 = Except.ok v.items_[i]? ∧
      (WF v → ∃ x, v.items_[i]? = some x ∧ (At v i).2 = Except.ok (some x))) ∧
    (At v i).1 = v ∧
    (WF v → GetSize v ≤ i → i < GetCapacity v →
      (At v i).2 = Except.error Error.out_of_range ∧ ∃ x, v.items_[i]? = some x) := by
  unfold GetSize GetCapacity
  by_cases hi : i ≥ v.size_
  · have hAt : At v i = (v, Except.error Error.out_of_range) := by
      unfold At; rw [if_pos hi]
    rw [hAt]
    refine ⟨⟨fun _ => hi, fun _ => rfl⟩, fun h => absurd h (by omega), rfl, ?_⟩
    intro hwf _ hc
    have hlt : i < v.items_.length := by rw [hwf.1]; exact hc
    exact ⟨rfl, ⟨v.items_[i], List.getElem?_eq_getElem hlt⟩⟩
  · have hAt : At v i = (v, Except.ok v.items_[i]?) := by
      unfold At; rw [if_neg hi]
    rw [hAt]
    refine ⟨⟨fun h => by simp at h, fun h => absurd h hi⟩, fun _ => ⟨rfl, ?_⟩, rfl, ?_⟩
    · intro hwf
      have hlt : i < v.items_.length := by have := hwf.1; have := hwf.2; omega
      exact ⟨v.items_[i], List.getElem?_eq_getElem hlt, by rw [List.getElem?_eq_getElem hlt]⟩
    · intro _ h1 _
      exact absurd h1 hi

/-- C12 at `{1, 2, 3}` in a block of four cells: index 1 is read, index 3 throws. -/
theorem C12_At_witness :
    (3 < GetCapacity (⟨[1, 2, 3, 9], 3, 4⟩ : Vec Int)) ∧
    (At (⟨[1, 2, 3, 9], 3, 4⟩ : Vec Int) 3).2 = Except.error Error.out_of_range ∧
    (At (⟨[1, 2, 3, 9], 3, 4⟩ : Vec Int) 1).2 = Except.ok (some 2) :=
  ⟨by decide,
   ((C12_At (⟨[1, 2, 3, 9], 3, 4⟩ : Vec Int) 3).2.2.2 (by decide) (by decide) (by decide)).1,
   ((C12_At (⟨[1, 2, 3, 9], 3, 4⟩ : Vec Int) 1).2.1 (by decide)).1⟩

/-! ## Copies and moves -/

theorem copy_block (E : Elem T) (b : Vec T) (hb : WF b) :
    (copyRange b.items_ 0 (ofSize E b.size_).items_ 0 b.size_).take b.size_ = live b := by
  unfold live
  exact take_copyRange _ _ _ (by have := hb.1; have := hb.2; omega) (by simp [ofSize])

theorem copyAssign_other (E : Elem T) (a b : Vec T) :
    copyAssign E a (Rhs.other b) =
      { items_ := copyRange b.items_ 0 (ofSize E b.size_).items_ 0 b.size_,
        size_ := b.size_, capacity_ := b.size_ } := rfl

theorem copyCtor_eq (E : Elem T) (b : Vec T) :
    copyCtor E b =
      { items_ := copyRange b.items_ 0 (ofSize E b.size_).items_ 0 b.size_,
        size_ := b.size_, capacity_ := b.size_ } := rfl

/-! ## Comparisons -/

theorem equalLoop_iff [BEq T] (l1 : List T) :
    ∀ l2 : List T, l1.length = l2.length →
      (equalLoop l1 l2 = true ↔
        ∀ i, i < l1.length → ∃ x y, l1[i]? = some x ∧ l2[i]? = some y ∧ (x == y) = true) := by
  induction l1 with
  | nil =>
    intro l2 _
    cases l2 <;> simp [equalLoop]
  | cons x xs ih =>
    intro l2 hl
    cases l2 with
    | nil => simp at hl
    | cons y ys =>
      have hl' : xs.length = ys.length := by simpa using hl
      rw [equalLoop]
      by_cases hxy : (x == y) = true
      · rw [if_pos hxy, ih ys hl']
        constructor
        · intro h i hi
          cases i with
          | zero => exact ⟨x, y, by simp, by simp, hxy⟩
          | succ k =>
            have hk : k < xs.length := by simp only [List.length_cons] at hi; omega
            simpa using h k hk
        · intro h i hi
          have := h (i + 1) (by simp only [List.length_cons]; omega)
          simpa using this
      · rw [if_neg hxy]
        constructor
        · intro h; exact absurd h (by simp)
        · intro h
          obtain ⟨x', y', hx', hy', he⟩ := h 0 (by simp)
          simp only [List.getElem?_cons_zero, Option.some.injEq] at hx' hy'
          subst hx'; subst hy'
          exact absurd he hxy

theorem equal_iff [BEq T] (l1 l2 : List T) :
    equal l1 l2 = true ↔ l1.length = l2.length ∧
      ∀ i, i < l1.length → ∃ x y, l1[i]? = some x ∧ l2[i]? = some y ∧ (x == y) = true := by
  unfold equal
  by_cases hl : l1.length = l2.length
  · rw [if_neg (by simpa using hl), equalLoop_iff l1 l2 hl]
    exact ⟨fun h => ⟨hl, h⟩, fun h => h.2⟩
  · rw [if_pos hl]
    exact ⟨fun h => absurd h (by simp), fun h => absurd h.1 hl⟩

theorem equal_iff_eq [BEq T] [LawfulBEq T] (l1 l2 : List T) : equal l1 l2 = true ↔ l1 = l2 := by
  rw [equal_iff]
  constructor
  · rintro ⟨hl, h⟩
    apply List.ext_getElem?
    intro i
    by_cases hi : i < l1.length
    · obtain ⟨x, y, hx, hy, he⟩ := h i hi
      rw [hx, hy, eq_of_beq he]
    · rw [List.getElem?_eq_none (by omega), List.getElem?_eq_none (by omega)]
  · rintro rfl
    refine ⟨rfl, fun i hi => ⟨l1[i], l1[i], List.getElem?_eq_getElem hi,
      List.getElem?_eq_getElem hi, beq_self_eq_true _⟩⟩

theorem lexicographical_compare_iff [LinearOrder T] (l1 : List T) :
    ∀ l2 : List T, lexicographical_compare l1 l2 = true ↔
      (l1.length < l2.length ∧ ∀ i, i < l1.length → l1[i]? = l2[i]?) ∨
      (∃ i, i < l1.length ∧ i < l2.length ∧ (∀ j, j < i → l1[j]? = l2[j]?) ∧
        ∃ x y, l1[i]? = some x ∧ l2[i]? = some y ∧ x < y) := by
  induction l1 with
  | nil =>
    intro l2
    cases l2 <;> simp [lexicographical_compare]
  | cons x xs ih =>
    intro l2
    cases l2 with
    | nil => simp [lexicographical_compare]
    | cons y ys =>
      rw [lexicographical_compare]
      by_cases hxy : x < y
      · rw [if_pos hxy]
        refine ⟨fun _ => Or.inr ⟨0, by simp, by simp, fun j hj => absurd hj (by omega),
          x, y, by simp, by simp, hxy⟩, fun _ => rfl⟩
      · rw [if_neg hxy]
        by_cases hyx : y < x
        · rw [if_pos hyx]
          constructor
          · intro h; exact absurd h (by simp)
          · rintro (⟨_, h⟩ | ⟨i, _, _, hpre, x', y', hx', hy', hlt⟩)
            · have h0 := h 0 (by simp)
              simp only [List.getElem?_cons_zero, Option.some.injEq] at h0
              subst h0; exact absurd hyx (lt_irrefl _)
            · cases i with
              | zero =>
                simp only [List.getElem?_cons_zero, Option.some.injEq] at hx' hy'
                subst hx'; subst hy'; exact absurd hlt hxy
              | succ k =>
                have h0 := hpre 0 (by omega)
                simp only [List.getElem?_cons_zero, Option.some.injEq] at h0
                subst h0; exact absurd hyx (lt_irrefl _)
        · rw [if_neg hyx]
          have hEq : x = y := le_antisymm (not_lt.mp hyx) (not_lt.mp hxy)
          subst hEq
          rw [ih ys]
          constructor
          · rintro (⟨hl, h⟩ | ⟨i, hi1, hi2, hpre, x', y', hx', hy', hlt⟩)
            · refine Or.inl ⟨by simp only [List.length_cons]; omega, ?_⟩
              intro i hi
              cases i with
              | zero => simp
              | succ k =>
                simp only [List.length_cons] at hi
                simpa using h k (by omega)
            · refine Or.inr ⟨i + 1, by simp only [List.length_cons]; omega,
                by simp only [List.length_cons]; omega, ?_, x', y', by simpa using hx',
                by simpa using hy', hlt⟩
              intro j hj
              cases j with
              | zero => simp
              | succ k => simpa using hpre k (by omega)
          · rintro (⟨hl, h⟩ | ⟨i, hi1, hi2, hpre, x', y', hx', hy', hlt⟩)
            · simp only [List.length_cons] at hl
              refine Or.inl ⟨by omega, ?_⟩
              intro i hi
              have := h (i + 1) (by simp only [List.length_cons]; omega)
              simpa using this
            · cases i with
              | zero =>
                simp only [List.getElem?_cons_zero, Option.some.injEq] at hx' hy'
                subst hx'; subst hy'; exact absurd hlt (lt_irrefl _)
              | succ k =>
                simp only [List.length_cons] at hi1 hi2
                refine Or.inr ⟨k, by omega, by omega, ?_, x', y', by simpa using hx',
                  by simpa using hy', hlt⟩
                intro j hj
                have := hpre (j + 1) (by omega)
                simpa using this

theorem lexicographical_compare_self [LinearOrder T] (l : List T) :
    lexicographical_compare l l = false := by
  induction l with
  | nil => rfl
  | cons x xs ih => rw [lexicographical_compare, if_neg (lt_irrefl x), if_neg (lt_irrefl x), ih]

theorem lexicographical_compare_asymm [LinearOrder T] (l1 : List T) :
    ∀ l2 : List T, lexicographical_compare l1 l2 = true →
      lexicographical_compare l2 l1 = false := by
  induction l1 with
  | nil =>
    intro l2 _
    cases l2 <;> rfl
  | cons x xs ih =>
    intro l2 h
    cases l2 with
    | nil => simp [lexicographical_compare] at h
    | cons y ys =>
      rw [lexicographical_compare] at h
      rw [lexicographical_compare]
      by_cases hxy : x < y
      · rw [if_neg (not_lt_of_lt hxy), if_pos hxy]
      · rw [if_neg hxy] at h
        by_cases hyx : y < x
        · rw [if_pos hyx] at h; exact absurd h (by simp)
        · rw [if_neg hyx] at h
          rw [if_neg hyx, if_neg hxy]
          exact ih ys h

theorem lexicographical_compare_total [LinearOrder T] (l1 : List T) :
    ∀ l2 : List T, lexicographical_compare l1 l2 = false →
      lexicographical_compare l2 l1 = false → l1 = l2 := by
  induction l1 with
  | nil =>
    intro l2 h _
    cases l2 with
    | nil => rfl
    | cons y ys => simp [lexicographical_compare] at h
  | cons x xs ih =>
    intro l2 h1 h2
    cases l2 with
    | nil => simp [lexicographical_compare] at h2
    | cons y ys =>
      rw [lexicographical_compare] at h1 h2
      by_cases hxy : x < y
      · rw [if_pos hxy] at h1; exact absurd h1 (by simp)
      · by_cases hyx : y < x
        · rw [if_pos hyx] at h2; exact absurd h2 (by simp)
        · rw [if_neg hxy, if_neg hyx] at h1
          rw [if_neg hyx, if_neg hxy] at h2
          have hEq : x = y := le_antisymm (not_lt.mp hyx) (not_lt.mp hxy)
          rw [hEq, ih ys h1 h2]

/-- C13: after the copy-assignment `a = b` of another vector, and after the copy-construction
of `a` from `b`, `a` has the size of `b` and the live elements of `b` in order, `a == b`
holds, and `b` is what it was; the self-assignment `a = a` leaves `a` as it was. -/
theorem C13_copy [BEq T] [LawfulBEq T] (E : Elem T) (a b : Vec T) (hb : WF b) :
    (GetSize (copyAssignBoth E a b).1 = GetSize b ∧
      live (copyAssignBoth E a b).1 = live b ∧
      opEq (copyAssignBoth E a b).1 b = true ∧
      (copyAssignBoth E a b).2 = b) ∧
    (GetSize (copyCtorBoth E b).1 = GetSize b ∧
      live (copyCtorBoth E b).1 = live b ∧
      opEq (copyCtorBoth E b).1 b = true ∧
      (copyCtorBoth E b).2 = b) ∧
    copyAssign E a Rhs.this = a := by
  have hl1 : live (copyAssign E a (Rhs.other b)) = live b := by
    rw [copyAssign_other]; exact copy_block E b hb
  have hl2 : live (copyCtor E b) = live b := by
    rw [copyCtor_eq]; exact copy_block E b hb
  refine ⟨⟨rfl, hl1, ?_, rfl⟩, ⟨rfl, hl2, ?_, rfl⟩, rfl⟩
  · show equal (live (copyAssign E a (Rhs.other b))) (live b) = true
    rw [hl1]; exact (equal_iff_eq _ _).mpr rfl
  · show equal (live (copyCtor E b)) (live b) = true
    rw [hl2]; exact (equal_iff_eq _ _).mpr rfl

/-- C13 at `a = {7, 8, 9}` and `b = {1, 2}` in a block of three cells, over `Int`. -/
theorem C13_copy_witness :
    WF (⟨[1, 2, 5], 2, 3⟩ : Vec Int) ∧
    live (copyAssignBoth ⟨0, 7⟩ (⟨[7, 8, 9], 3, 3⟩ : Vec Int) ⟨[1, 2, 5], 2, 3⟩).1
      = live (⟨[1, 2, 5], 2, 3⟩ : Vec Int) ∧
    opEq (copyCtorBoth ⟨0, 7⟩ (⟨[1, 2, 5], 2, 3⟩ : Vec Int)).1 ⟨[1, 2, 5], 2, 3⟩ = true :=
  ⟨by decide,
   (C13_copy ⟨0, 7⟩ (⟨[7, 8, 9], 3, 3⟩ : Vec Int) ⟨[1, 2, 5], 2, 3⟩ (by decide)).1.2.1,
   (C13_copy ⟨0, 7⟩ (⟨[7, 8, 9], 3, 3⟩ : Vec Int) ⟨[1, 2, 5], 2, 3⟩ (by decide)).2.1.2.2.1⟩

/-- C14: the move-construction of `dst` from `src` and the move-assignment of another vector
`src` to `dst` leave `src` with size 0, capacity 0 and the null block, a well-formed empty
vector, and give `dst` the size, the capacity and the live elements `src` had; the move
self-assignment leaves the vector as it was. -/
theorem C14_move (dst src : Vec T) :
    ((moveCtor src).2.size_ = 0 ∧ (moveCtor src).2.capacity_ = 0 ∧
      (moveCtor src).2.items_ = [] ∧ WF (moveCtor src).2 ∧
      GetSize (moveCtor src).1 = GetSize src ∧
      GetCapacity (moveCtor src).1 = GetCapacity src ∧
      live (moveCtor src).1 = live src) ∧
    ((moveAssign dst (Rhs.other src)).2.size_ = 0 ∧
      (moveAssign dst (Rhs.other src)).2.capacity_ = 0 ∧
      (moveAssign dst (Rhs.other src)).2.items_ = [] ∧
      WF (moveAssign dst (Rhs.other src)).2 ∧
      GetSize (moveAssign dst (Rhs.other src)).1 = GetSize src ∧
      GetCapacity (moveAssign dst (Rhs.other src)).1 = GetCapacity src ∧
      live (moveAssign dst (Rhs.other src)).1 = live src) ∧
    (moveAssign dst Rhs.this).1 = dst := by
  have he : WF ({ items_ := [], size_ := 0, capacity_ := 0 } : Vec T) := ⟨rfl, le_refl _⟩
  exact ⟨⟨rfl, rfl, rfl, he, rfl, rfl, rfl⟩, ⟨rfl, rfl, rfl, he, rfl, rfl, rfl⟩, rfl⟩

/-- C15: `a == b` is true exactly when the sizes agree and the elements at every index below
the size compare equal; it is the same for any two vectors with the same live elements,
whatever their capacities and the cells from `size_` on; `a != b` is its negation. -/
theorem C15_equality [BEq T] (a b : Vec T) (ha : WF a) (hb : WF b) :
    (opEq a b = true ↔ GetSize a = GetSize b ∧
      ∀ i, i < GetSize a →
        ∃ x y, a.items_[i]? = some x ∧ b.items_[i]? = some y ∧ (x == y) = true) ∧
    (∀ a' b' : Vec T, live a' = live a → live b' = live b → opEq a' b' = opEq a b) ∧
    opNe a b = !opEq a b := by
  refine ⟨?_, ?_, rfl⟩
  · unfold opEq GetSize
    rw [equal_iff, live_length a ha, live_length b hb]
    constructor
    · rintro ⟨hl, h⟩
      refine ⟨hl, fun i hi => ?_⟩
      obtain ⟨x, y, hx, hy, he⟩ := h i hi
      rw [live_getElem? a i hi] at hx
      rw [live_getElem? b i (by omega)] at hy
      exact ⟨x, y, hx, hy, he⟩
    · rintro ⟨hl, h⟩
      refine ⟨hl, fun i hi => ?_⟩
      obtain ⟨x, y, hx, hy, he⟩ := h i hi
      rw [← live_getElem? a i hi] at hx
      rw [← live_getElem? b i (by omega)] at hy
      exact ⟨x, y, hx, hy, he⟩
  · intro a' b' h1 h2
    unfold opEq
    rw [h1, h2]

/-- C15 at `{1, 2, 3}` against `{1, 2, 3}` in a larger block, and at `{1, 2}` against
`{1, 2, 3}`, over `Int`. -/
theorem C15_equality_witness :
    WF (⟨[1, 2, 3], 3, 3⟩ : Vec Int) ∧ WF (⟨[1, 2, 3, 9], 3, 4⟩ : Vec Int) ∧
    opEq (⟨[1, 2, 3], 3, 3⟩ : Vec Int) ⟨[1, 2, 3, 9], 3, 4⟩ = true ∧
    opNe (⟨[1, 2], 2, 2⟩ : Vec Int) ⟨[1, 2, 3], 3, 3⟩ = true ∧
    (opNe (⟨[1, 2, 3], 3, 3⟩ : Vec Int) ⟨[1, 2, 3, 9], 3, 4⟩
      = !opEq (⟨[1, 2, 3], 3, 3⟩ : Vec Int) ⟨[1, 2, 3, 9], 3, 4⟩) :=
  ⟨by decide, by decide, by decide, by decide,
   (C15_equality (⟨[1, 2, 3], 3, 3⟩ : Vec Int) ⟨[1, 2, 3, 9], 3, 4⟩ (by decide)
      (by decide)).2.2⟩

/-- C16: over a linearly ordered element type, `a < b` is true exactly when the live elements
of `a` are a strict prefix of those of `b`, or at the first index where the two differ the
element of `a` is less than the element of `b`; so a strict prefix compares less than and
unequal to the longer vector. -/
theorem C16_less [LinearOrder T] (a b : Vec T) (ha : WF a) (hb : WF b) :
    (opLt a b = true ↔
      (GetSize a < GetSize b ∧ ∀ i, i < GetSize a → a.items_[i]? = b.items_[i]?) ∨
      (∃ i, i < GetSize a ∧ i < GetSize b ∧ (∀ j, j < i → a.items_[j]? = b.items_[j]?) ∧
        ∃ x y, a.items_[i]? = some x ∧ b.items_[i]? = some y ∧ x < y)) ∧
    ((GetSize a < GetSize b ∧ ∀ i, i < GetSize a → a.items_[i]? = b.items_[i]?) →
      opLt a b = true ∧ opEq a b = false ∧ opNe a b = true) := by
  have hiff : opLt a b = true ↔
      (GetSize a < GetSize b ∧ ∀ i, i < GetSize a → a.items_[i]? = b.items_[i]?) ∨
      (∃ i, i < GetSize a ∧ i < GetSize b ∧ (∀ j, j < i → a.items_[j]? = b.items_[j]?) ∧
        ∃ x y, a.items_[i]? = some x ∧ b.items_[i]? = some y ∧ x < y) := by
    unfold opLt GetSize
    rw [lexicographical_compare_iff, live_length a ha, live_length b hb]
    constructor
    · rintro (⟨hl, h⟩ | ⟨i, hi1, hi2, hpre, x, y, hx, hy, hlt⟩)
      · refine Or.inl ⟨hl, fun i hi => ?_⟩
        rw [← live_getElem? a i hi, ← live_getElem? b i (by omega)]
        exact h i hi
      · refine Or.inr ⟨i, hi1, hi2, fun j hj => ?_, x, y, ?_, ?_, hlt⟩
        · rw [← live_getElem? a j (by omega), ← live_getElem? b j (by omega)]
          exact hpre j hj
        · rw [← live_getElem? a i hi1]; exact hx
        · rw [← live_getElem? b i hi2]; exact hy
    · rintro (⟨hl, h⟩ | ⟨i, hi1, hi2, hpre, x, y, hx, hy, hlt⟩)
      · refine Or.inl ⟨hl, fun i hi => ?_⟩
        rw [live_getElem? a i hi, live_getElem? b i (by omega)]
        exact h i hi
      · refine Or.inr ⟨i, hi1, hi2, fun j hj => ?_, x, y, ?_, ?_, hlt⟩
        · rw [live_getElem? a j (by omega), live_getElem? b j (by omega)]
          exact hpre j hj
        · rw [live_getElem? a i hi1]; exact hx
        · rw [live_getElem? b i hi2]; exact hy
  refine ⟨hiff, fun hpre => ?_⟩
  have hne : equal (live a) (live b) = false := by
    unfold equal
    rw [if_pos (by rw [live_length a ha, live_length b hb]; unfold GetSize at hpre; omega)]
  refine ⟨hiff.mpr (Or.inl hpre), hne, ?_⟩
  unfold opNe; rw [hne]; rfl

/-- C16 at `{1, 2}` against `{1, 2, 3}`, over `Int`. -/
theorem C16_less_witness :
    WF (⟨[1, 2], 2, 2⟩ : Vec Int) ∧ WF (⟨[1, 2, 3], 3, 3⟩ : Vec Int) ∧
    opLt (⟨[1, 2], 2, 2⟩ : Vec Int) ⟨[1, 2, 3], 3, 3⟩ = true ∧
    opEq (⟨[1, 2], 2, 2⟩ : Vec Int) ⟨[1, 2, 3], 3, 3⟩ = false ∧
    opNe (⟨[1, 2], 2, 2⟩ : Vec Int) ⟨[1, 2, 3], 3, 3⟩ = true :=
  ⟨by decide, by decide,
   (C16_less (⟨[1, 2], 2, 2⟩ : Vec Int) ⟨[1, 2, 3], 3, 3⟩ (by decide) (by decide)).2
     ⟨by decide, by decide⟩⟩

/-- C17: `SimpleVector(n)` has size `n`, capacity `n` and `Type()` in every element;
`SimpleVector(n, x)` has size `n`, capacity `n` and `x` in every element; the vector of an
initializer list has its length as size and capacity and its `i`-th value at index `i`; the
default constructor gives size 0 and capacity 0. -/
theorem C17_constructors (E : Elem T) :
    (∀ n, GetSize (ofSize E n) = n ∧ GetCapacity (ofSize E n) = n ∧
      ∀ i, i < n → (ofSize E n).items_[i]? = some E.dflt) ∧
    (∀ n x, GetSize (ofSizeValue E n x) = n ∧ GetCapacity (ofSizeValue E n x) = n ∧
      ∀ i, i < n → (ofSizeValue E n x).items_[i]? = some x) ∧
    (∀ init : List T, GetSize (ofInit E init) = init.length ∧
      GetCapacity (ofInit E init) = init.length ∧
      ∀ i, i < init.length → (ofInit E init).items_[i]? = init[i]?) ∧
    GetSize (empty : Vec T) = 0 ∧ GetCapacity (empty : Vec T) = 0 := by
  refine ⟨?_, ?_, ?_, rfl, rfl⟩
  · intro n
    refine ⟨rfl, rfl, fun i hi => ?_⟩
    rw [ofSize_eq]; exact List.getElem?_replicate_of_lt hi
  · intro n x
    refine ⟨rfl, rfl, fun i hi => ?_⟩
    rw [ofSizeValue_eq]; exact List.getElem?_replicate_of_lt hi
  · intro init
    refine ⟨rfl, rfl, fun i _ => ?_⟩
    rw [ofInit_eq]

/-- C17 at `SimpleVector(3)`, `SimpleVector(2, 5)` and `{4, 5, 6}`, over `Int`. -/
theorem C17_constructors_witness :
    (ofSize ⟨0, 7⟩ 3 : Vec Int) = ⟨[0, 0, 0], 3, 3⟩ ∧
    (ofSizeValue ⟨0, 7⟩ 2 5 : Vec Int) = ⟨[5, 5], 2, 2⟩ ∧
    (ofInit ⟨0, 7⟩ [4, 5, 6] : Vec Int) = ⟨[4, 5, 6], 3, 3⟩ ∧
    (ofSize ⟨0, 7⟩ 3 : Vec Int).items_[2]? = some 0 :=
  ⟨by decide, by decide, by decide,
   ((C17_constructors (⟨0, 7⟩ : Elem Int)).1 3).2.2 2 (by decide)⟩

/-! ## Insert on a full vector -/

theorem growTarget_capacity (E : Elem T) (c : Nat) :
    (Resize E (ofSize E (c * 2)) (c + 1)).capacity_ = if c = 0 then 2 else 2 * c := by
  by_cases hc : c = 0
  · subst hc; rfl
  · rw [if_neg hc]
    unfold Resize
    rw [if_pos (by simp only [ofSize]; omega)]
    simp only [ofSize]; omega

theorem InsertMove_full_capacity (E : Elem T) (v : Vec T) (p : Nat) (x : T)
    (hf : v.size_ = v.capacity_) :
    (InsertMove E v p x).vec.capacity_ = (if v.capacity_ = 0 then 2 else 2 * v.capacity_) ∧
    (InsertMove E v p x).blk = Block.fresh := by
  have hg := growTarget_capacity E v.capacity_
  rw [← hf] at hg
  have hc : ¬ v.size_ + 1 ≤ v.capacity_ := by omega
  rw [InsertMove_grow E v p x hc]
  exact ⟨by rw [← hf]; exact hg, rfl⟩

/-- C18, as stated, fails on the default-constructed vector: it is full, position 0 is
valid, and after Insert by the rvalue overload the capacity is 2, not twice 0. -/
theorem C18_counterexample :
    (empty : Vec Int).size_ = (empty : Vec Int).capacity_ ∧
    0 ≤ (empty : Vec Int).size_ ∧
    (InsertMove ⟨0, 7⟩ (empty : Vec Int) 0 9).vec.capacity_ = 2 ∧
    ¬ ((InsertMove ⟨0, 7⟩ (empty : Vec Int) 0 9).vec.capacity_
        = 2 * (empty : Vec Int).capacity_) := by
  decide

/-- C18, amended: on a full vector and at a valid position Insert by the rvalue overload
does not pass the test `capacity_ >= size_ + 1` and ends on the block of `new_vector`; the
capacity after the call is twice the capacity before it when that was at least 1, and 2
when it was 0. -/
theorem C18_InsertMove_full_capacity (E : Elem T) (v : Vec T) (p : Nat) (x : T)
    (hf : v.size_ = v.capacity_) (_hp : p ≤ v.size_) :
    ¬ (v.capacity_ ≥ v.size_ + 1) ∧ (InsertMove E v p x).blk = Block.fresh ∧
    (1 ≤ v.capacity_ → GetCapacity (InsertMove E v p x).vec = 2 * GetCapacity v) ∧
    (v.capacity_ = 0 → GetCapacity (InsertMove E v p x).vec = 2) := by
  obtain ⟨h1, h2⟩ := InsertMove_full_capacity E v p x hf
  unfold GetCapacity
  refine ⟨by omega, h2, fun hc => ?_, fun hc => ?_⟩
  · rw [h1, if_neg (by omega)]
  · rw [h1, if_pos hc]

/-- C18, amended, at the full vector `{1, 2}` and at the empty vector, over `Int`. -/
theorem C18_InsertMove_full_capacity_witness :
    (⟨[1, 2], 2, 2⟩ : Vec Int).size_ = (⟨[1, 2], 2, 2⟩ : Vec Int).capacity_ ∧
    GetCapacity (InsertMove ⟨0, 7⟩ (⟨[1, 2], 2, 2⟩ : Vec Int) 1 9).vec
      = 2 * GetCapacity (⟨[1, 2], 2, 2⟩ : Vec Int) ∧
    GetCapacity (InsertMove ⟨0, 7⟩ (empty : Vec Int) 0 9).vec = 2 :=
  ⟨by decide,
   (C18_InsertMove_full_capacity ⟨0, 7⟩ (⟨[1, 2], 2, 2⟩ : Vec Int) 1 9 (by decide)
      (by decide)).2.2.1 (by decide),
   (C18_InsertMove_full_capacity ⟨0, 7⟩ (empty : Vec Int) 0 9 (by decide)
      (by decide)).2.2.2 (by decide)⟩

/-- C19: on every vector, with or without a spare cell, and at every position `p ≤ S`,
erasing at index `p` what Insert (the rvalue overload) put at index `p` gives a vector of
the same size with the same live elements in the same order; it compares `==` to the
vector before the two calls. -/
theorem C19_Insert_Erase_round_trip [BEq T] [LawfulBEq T] (E : Elem T) (v : Vec T) (p : Nat)
    (x : T) (h : WF v) (hp : p ≤ v.size_) :
    GetSize (Erase (InsertMove E v p x).vec p).vec = GetSize v ∧
    live (Erase (InsertMove E v p x).vec p).vec = live v ∧
    opEq (Erase (InsertMove E v p x).vec p).vec v = true ∧
    (InsertMove E v p x).defined = true ∧
    (Erase (InsertMove E v p x).vec p).defined = true := by
  obtain ⟨h1, h2⟩ := InsertMove_Erase E v p x h hp
  refine ⟨h1, h2, ?_, (InsertMove_ret E v p x).2, rfl⟩
  unfold opEq
  rw [h2]
  exact (equal_iff_eq _ _).mpr rfl

/-- C19 at the full vector `{1, 2}` and at `{1, 2, 4, 5}` with capacity 5, over `Int`. -/
theorem C19_Insert_Erase_round_trip_witness :
    WF (⟨[1, 2], 2, 2⟩ : Vec Int) ∧
    live (Erase (InsertMove ⟨0, 7⟩ (⟨[1, 2], 2, 2⟩ : Vec Int) 0 9).vec 0).vec
      = live (⟨[1, 2], 2, 2⟩ : Vec Int) ∧
    opEq (Erase (InsertMove ⟨0, 7⟩ (⟨[1, 2, 4, 5, 7], 4, 5⟩ : Vec Int) 2 9).vec 2).vec
      (⟨[1, 2, 4, 5, 7], 4, 5⟩ : Vec Int) = true :=
  ⟨by decide,
   (C19_Insert_Erase_round_trip ⟨0, 7⟩ (⟨[1, 2], 2, 2⟩ : Vec Int) 0 9 (by decide)
      (by decide)).2.1,
   (C19_Insert_Erase_round_trip ⟨0, 7⟩ (⟨[1, 2, 4, 5, 7], 4, 5⟩ : Vec Int) 2 9 (by decide)
      (by decide)).2.2.1⟩

/-- C20: over a linearly ordered element type exactly one of `a < b`, `a == b`, `b < a`
holds; `a > b` is `b < a`; `a <= b` holds exactly when `a < b` or `a == b`; `a >= b` holds
exactly when `b < a` or `a == b`. -/
theorem C20_comparisons [LinearOrder T] (a b : Vec T) :
    ((opLt a b = true ∨ opEq a b = true ∨ opLt b a = true) ∧
      ¬ (opLt a b = true ∧ opEq a b = true) ∧
      ¬ (opLt a b = true ∧ opLt b a = true) ∧
      ¬ (opEq a b = true ∧ opLt b a = true)) ∧
    opGt a b = opLt b a ∧
    (opLe a b = true ↔ opLt a b = true ∨ opEq a b = true) ∧
    (opGe a b = true ↔ opLt b a = true ∨ opEq a b = true) := by
  have heq : opEq a b = true ↔ live a = live b := equal_iff_eq _ _
  have hself := lexicographical_compare_self (live a)
  have hasym := lexicographical_compare_asymm (live a) (live b)
  have htot := lexicographical_compare_total (live a) (live b)
  unfold opGt opLe opGe opLt
  rw [heq]
  cases h1 : lexicographical_compare (live a) (live b) <;>
    cases h2 : lexicographical_compare (live b) (live a)
  · have he := htot h1 h2
    simp [he]
  · have hne : live a ≠ live b := by
      intro he; rw [he] at h1 h2; rw [h1] at h2; exact absurd h2 (by simp)
    simp [hne]
  · have hne : live a ≠ live b := by
      intro he; rw [he] at h1 h2; rw [h1] at h2; exact absurd h2 (by simp)
    simp [hne]
  · exact absurd (hasym h1) (by rw [h2]; simp)

/-- C20 at `{1, 2}` and `{1, 3}` over `Int`. -/
theorem C20_comparisons_witness :
    opLt (⟨[1, 2], 2, 2⟩ : Vec Int) ⟨[1, 3], 2, 2⟩ = true ∧
    (opGt (⟨[1, 2], 2, 2⟩ : Vec Int) ⟨[1, 3], 2, 2⟩
      = opLt (⟨[1, 3], 2, 2⟩ : Vec Int) ⟨[1, 2], 2, 2⟩) ∧
    ¬ (opLt (⟨[1, 2], 2, 2⟩ : Vec Int) ⟨[1, 3], 2, 2⟩ = true ∧
      opLt (⟨[1, 3], 2, 2⟩ : Vec Int) ⟨[1, 2], 2, 2⟩ = true) :=
  ⟨by decide, (C20_comparisons (⟨[1, 2], 2, 2⟩ : Vec Int) ⟨[1, 3], 2, 2⟩).2.1,
   (C20_comparisons (⟨[1, 2], 2, 2⟩ : Vec Int) ⟨[1, 3], 2, 2⟩).1.2.2.1⟩

end SimpleVector
